import Mathlib

/-!
# WordGen: the combination engine of `main.go`

A shallow embedding of the pure part of `main.go` (`filterWords`,
`toLeetspeak`, `generateCombinations`, `reverse` and the `strings` functions
they call) and the properties of the context words and of the candidate list
that follow from the code.

Modelling conventions.

* A Go `string` that holds valid UTF-8 is a Lean `String`: the sequence of its
  code points. `len(s)` is the number of bytes of the UTF-8 encoding,
  `String.utf8ByteSize`, and `[]rune(s)` is `String.data`.
* The case tables of Go's `unicode` package are not part of the repository.
  For code points up to U+007F the functions below follow the ASCII branch of
  the library code; above it they consult a `UnicodeTables` parameter.
* The pattern `^[a-zA-Z0-9]+$` of `filterWords` is compiled by Go's `regexp`
  package; `validMatchString` states what it matches.
* Go enumerates a `map` in an unspecified order. `toLeetspeakIn` takes the
  order of one enumeration as an argument, and `generateCombinations` takes a
  supply of orders, one for each call of `toLeetspeak` it makes.
-/

namespace WordGen

/-! ## The `unicode` and `strings` functions used by the program -/

/-- Tables of Go's `unicode` package, consulted only for code points above
`MaxASCII`: the three case mappings and the classes `isSeparator` asks for. -/
structure UnicodeTables where
  lower : Char → Char
  upper : Char → Char
  title : Char → Char
  isLetter : Char → Bool
  isDigit : Char → Bool
  isSpace : Char → Bool

/-- Tables under which every code point above U+007F is caseless and in no
class; on ASCII input no function below consults the tables. -/
def asciiTables : UnicodeTables where
  lower := fun r => r
  upper := fun r => r
  title := fun r => r
  isLetter := fun _ => false
  isDigit := fun _ => false
  isSpace := fun _ => false

/-- The constant `unicode.MaxASCII`. -/
def MaxASCII : Nat := 0x7F

/-- Go `unicode.ToLower`: `r += 'a' - 'A'` on `'A'..'Z'`, the table above ASCII. -/
def unicodeToLower (U : UnicodeTables) (r : Char) : Char :=
  if r.toNat ≤ MaxASCII then
    if 'A'.toNat ≤ r.toNat ∧ r.toNat ≤ 'Z'.toNat then
      Char.ofNat (r.toNat + ('a'.toNat - 'A'.toNat))
    else r
  else U.lower r

/-- Go `unicode.ToUpper`: `r -= 'a' - 'A'` on `'a'..'z'`, the table above ASCII. -/
def unicodeToUpper (U : UnicodeTables) (r : Char) : Char :=
  if r.toNat ≤ MaxASCII then
    if 'a'.toNat ≤ r.toNat ∧ r.toNat ≤ 'z'.toNat then
      Char.ofNat (r.toNat - ('a'.toNat - 'A'.toNat))
    else r
  else U.upper r

/-- Go `unicode.ToTitle`: title case is upper case for ASCII. -/
def unicodeToTitle (U : UnicodeTables) (r : Char) : Char :=
  if r.toNat ≤ MaxASCII then
    if 'a'.toNat ≤ r.toNat ∧ r.toNat ≤ 'z'.toNat then
      Char.ofNat (r.toNat - ('a'.toNat - 'A'.toNat))
    else r
  else U.title r

/-- Go `strings.Map` for a mapping that never drops a code point. -/
def Map (mapping : Char → Char) (s : String) : String :=
  ⟨s.data.map mapping⟩

/-- Go `strings.ToLower`. The library's fast path for ASCII-only input
computes the same string as `Map(unicode.ToLower, s)`. -/
def ToLower (U : UnicodeTables) (s : String) : String :=
  Map (unicodeToLower U) s

/-- Go `strings.ToUpper`, as `Map(unicode.ToUpper, s)`. -/
def ToUpper (U : UnicodeTables) (s : String) : String :=
  Map (unicodeToUpper U) s

/-- Go `strings.isSeparator`: ASCII alphanumerics and underscore are not
separators, every other ASCII code point is; above ASCII letters and digits
are not, and spaces are. -/
def isSeparator (U : UnicodeTables) (r : Char) : Bool :=
  if r.toNat ≤ 0x7F then
    if '0'.toNat ≤ r.toNat ∧ r.toNat ≤ '9'.toNat then false
    else if 'a'.toNat ≤ r.toNat ∧ r.toNat ≤ 'z'.toNat then false
    else if 'A'.toNat ≤ r.toNat ∧ r.toNat ≤ 'Z'.toNat then false
    else if r = '_' then false
    else true
  else if U.isLetter r || U.isDigit r then false
  else U.isSpace r

/-- The closure of Go `strings.Title`, threaded through the string: `prev` is
the code point seen before, and a code point after a separator is title-cased. -/
def Title.go (U : UnicodeTables) : Char → List Char → List Char
  | _, [] => []
  | prev, r :: rs =>
    (if isSeparator U prev then unicodeToTitle U r else r) :: Title.go U r rs

/-- Go `strings.Title`: `prev` starts as a space. -/
def Title (U : UnicodeTables) (s : String) : String :=
  ⟨Title.go U ' ' s.data⟩

/-- The scan of Go `strings.Replace` with `n = -1` and a non-empty `old`:
`skip` counts the code points of a match still to be passed over; at a match
`new` is written and the scan resumes after the match. -/
def ReplaceAll.scan (old new : List Char) : Nat → List Char → List Char
  | _, [] => []
  | skip + 1, _ :: cs => ReplaceAll.scan old new skip cs
  | 0, c :: cs =>
    if old.isPrefixOf (c :: cs) then new ++ ReplaceAll.scan old new (old.length - 1) cs
    else c :: ReplaceAll.scan old new 0 cs

/-- Go `strings.ReplaceAll(s, old, new)`. An empty `old` matches before every
code point and at the end of the string. -/
def ReplaceAll (s old new : String) : String :=
  if old.data = [] then ⟨new.data ++ s.data.flatMap (fun c => c :: new.data)⟩
  else ⟨ReplaceAll.scan old.data new.data 0 s.data⟩

/-- The assignment `r[i], r[j] = r[j], r[i]` on a rune slice. -/
def swapRunes (r : List Char) (i j : Nat) : List Char :=
  match r[i]?, r[j]? with
  | some a, some b => (r.set i b).set j a
  | _, _ => r

/-- The loop of `reverse`: `for ...; i < j; i, j = i+1, j-1`. Each pass
brings `i` and `j` closer, so `len(r)` passes are never used up. -/
def reverse.loop : Nat → List Char → Int → Int → List Char
  | 0, r, _, _ => r
  | fuel + 1, r, i, j =>
    if i < j then reverse.loop fuel (swapRunes r i.toNat j.toNat) (i + 1) (j - 1)
    else r

/-- The function `reverse` of `main.go`: `i, j := 0, len(r)-1` on `[]rune(s)`. -/
def reverse (s : String) : String :=
  ⟨reverse.loop s.data.length s.data 0 ((s.data.length : Int) - 1)⟩

/-- Go `fmt.Sprintf("%d", i)` for a non-negative `i`. -/
def sprintfD (i : Nat) : String := Nat.repr i

/-! ## Leetspeak -/

/-- The map literal `replacements` of `toLeetspeak`, in source order. -/
def replacements : List (String × String) :=
  [("a", "@"), ("A", "@"),
   ("e", "3"), ("E", "3"),
   ("i", "1"), ("I", "1"),
   ("o", "0"), ("O", "0"),
   ("s", "$"), ("S", "$"),
   ("t", "7"), ("T", "7"),
   ("l", "1"), ("L", "1"),
   ("g", "9"), ("G", "9")]

/-- The loop of `toLeetspeak` when `range replacements` yields the entries in
the order `order`: `result = strings.ReplaceAll(result, old, new)` for each. -/
def toLeetspeakIn (order : List (String × String)) (s : String) : String :=
  order.foldl (fun result p => ReplaceAll result p.1 p.2) s

/-- One enumeration of the map `replacements`: every entry once, in some order. -/
structure MapOrder where
  pairs : List (String × String)
  is_perm : pairs.Perm replacements

/-- The enumeration in the order of the map literal. -/
def sourceOrder : MapOrder := ⟨replacements, List.Perm.refl _⟩

/-- The enumeration in the opposite order. -/
def reversedOrder : MapOrder := ⟨replacements.reverse, List.reverse_perm _⟩

/-- The function `toLeetspeak` of `main.go` under the enumeration `m`. -/
def toLeetspeak (m : MapOrder) (s : String) : String :=
  toLeetspeakIn m.pairs s

/-- The substitution table as the spec words it: each character is mapped on
its own, a/A to @, e/E to 3, i/I to 1, o/O to 0, s/S to $, t/T to 7, l/L to 1,
g/G to 9, and every other character is unchanged. -/
def leetChar (c : Char) : Char :=
  if c = 'a' ∨ c = 'A' then '@'
  else if c = 'e' ∨ c = 'E' then '3'
  else if c = 'i' ∨ c = 'I' then '1'
  else if c = 'o' ∨ c = 'O' then '0'
  else if c = 's' ∨ c = 'S' then '$'
  else if c = 't' ∨ c = 'T' then '7'
  else if c = 'l' ∨ c = 'L' then '1'
  else if c = 'g' ∨ c = 'G' then '9'
  else c

/-- The spec's `leetspeakVariant`: the table applied to every character. -/
def leetspeakVariant (s : String) : String :=
  ⟨s.data.map leetChar⟩

/-! ## The combination engine -/

/-- The slice `suffixes` of `generateCombinations`. -/
def suffixes : List String :=
  ["123", "!", "2024", "2025", "@", "#", "1", "01", "321", "1337", "2023", "2022",
   "2021", "2020", "00", "99", "$$", "admin", "user", "test", "flag", "ctf"]

/-- The slice `years`. -/
def years : List String :=
  ["2020", "2021", "2022", "2023", "2024", "2025", "1999", "2000", "1337"]

/-- The slice `keyboards`. -/
def keyboards : List String :=
  ["qwerty", "asdf", "123456", "password", "admin", "root"]

/-- The slice `ctfTerms`. -/
def ctfTerms : List String :=
  ["flag", "admin", "secret", "hidden", "key", "pass", "login", "auth", "token",
   "hash", "crypto", "encode", "decode", "ctf", "challenge", "pwn", "web", "misc",
   "forensics", "reverse", "binary"]

/-- The slice `prefixes`. -/
def prefixes : List String :=
  ["admin", "user", "test", "super", "root", "guest", "demo", "temp", "new", "old",
   "backup", "hidden", "secret"]

/-- The endings appended by the block "Common word transformations", in order. -/
def wordEndings : List String :=
  ["s", "es", "ing", "ed", "ly", "ful", "less", "ish", "er", "est", "tion", "ment",
   "ity", "ness", "ism", "ist", "ize", "ise", "ation", "ification", "ology",
   "graphy", "ics", "verse", "world", "net", "sys"]

/-- The slice literal `combos` built for one context word. -/
def combos (U : UnicodeTables) (m : MapOrder) (base word : String) : List String :=
  [word,
   ToLower U word,
   ToUpper U word,
   Title U word,
   reverse word,
   toLeetspeak m word,
   base ++ word,
   word ++ base,
   base ++ "_" ++ word,
   word ++ "_" ++ base,
   base ++ "-" ++ word,
   word ++ "-" ++ base,
   base ++ "." ++ word,
   word ++ "." ++ base]

/-- The loop `for _, combo := range combos`: the combo, then the combo with
every suffix, then the combo with every year. -/
def comboLoop (results : List String) (cs : List String) : List String :=
  cs.foldl (fun results combo =>
    let results := results ++ [combo]
    let results := suffixes.foldl (fun results s => results ++ [combo ++ s]) results
    years.foldl (fun results year => results ++ [combo ++ year]) results) results

/-- The loop `for _, word := range context`. A word with `len(word) < 3` or
`len(word) > 20` is passed over by `continue`; `calls` counts the calls of
`toLeetspeak` made so far, so the next one enumerates the map as `ord calls`. -/
def contextLoop (U : UnicodeTables) (ord : Nat → MapOrder) (base : String) :
    List String → Nat → List String → List String
  | [], _, results => results
  | word :: rest, calls, results =>
    if word.utf8ByteSize < 3 ∨ word.utf8ByteSize > 20 then
      contextLoop U ord base rest calls results
    else
      contextLoop U ord base rest (calls + 1)
        (comboLoop results (combos U (ord calls) base word))

/-- The slice `results` of `generateCombinations` when the last loop starts:
everything appended by lines 127 to 207, in order. -/
def collectResults (U : UnicodeTables) (ord : Nat → MapOrder) (base : String)
    (context : List String) : List String :=
  let base := ReplaceAll (ToLower U base) " " ""
  let results : List String := []
  -- Base word variations
  let results := results ++ [base]
  let results := results ++ [ToUpper U base, Title U base]
  let results := results ++ [reverse base]
  let results := results ++ [toLeetspeak (ord 0) base]
  -- Common word transformations
  let results := results ++ [base ++ "s", base ++ "es", base ++ "ing", base ++ "ed"]
  let results := results ++ [base ++ "ly", base ++ "ful", base ++ "less", base ++ "ish"]
  let results := results ++ [base ++ "er", base ++ "est", base ++ "tion", base ++ "ment"]
  let results := results ++ [base ++ "ity", base ++ "ness", base ++ "ism", base ++ "ist"]
  let results := results ++ [base ++ "ize", base ++ "ise", base ++ "ation", base ++ "ification"]
  let results := results ++ [base ++ "ology", base ++ "graphy", base ++ "ics"]
  let results := results ++ [base ++ "verse", base ++ "world", base ++ "net", base ++ "sys"]
  -- CTF-specific patterns
  let results := ctfTerms.foldl (fun results term =>
    results ++ [base ++ term, term ++ base, base ++ "_" ++ term, term ++ "_" ++ base]) results
  -- Year combinations
  let results := years.foldl (fun results year =>
    results ++ [base ++ year, year ++ base]) results
  -- Keyboard patterns
  let results := keyboards.foldl (fun results kb =>
    results ++ [base ++ kb, kb ++ base]) results
  -- Number patterns
  let results := (List.range 100).foldl (fun results i =>
    let results := if i < 10 then results ++ [base ++ ("0" ++ sprintfD i)] else results
    results ++ [base ++ sprintfD i]) results
  -- Common prefixes
  let results := prefixes.foldl (fun results p =>
    results ++ [p ++ base, p ++ "_" ++ base, p ++ "-" ++ base]) results
  -- Context word combinations
  contextLoop U ord base context 1 results

/-- The loop "Remove duplicates": `seen` is the map `seen` (a key that was never
set reads `false`), `unique` the slice built so far. -/
def removeDuplicates : List String → (String → Bool) → List String → List String
  | [], _, unique => unique
  | word :: rest, seen, unique =>
    if !seen word && word != "" then
      removeDuplicates rest (fun k => if k = word then true else seen k) (unique ++ [word])
    else
      removeDuplicates rest seen unique

/-- The function `generateCombinations` of `main.go`. -/
def generateCombinations (U : UnicodeTables) (ord : Nat → MapOrder) (base : String)
    (context : List String) : List String :=
  removeDuplicates (collectResults U ord base context) (fun _ => false) []

/-! ## The rule families, as lists -/

/-- The base as line 113 rebinds it: lowercased, then every space removed. -/
def normalize (U : UnicodeTables) (base : String) : String :=
  ReplaceAll (ToLower U base) " " ""

/-- Family A, the base word variations (lines 130 to 133). -/
def familyA (U : UnicodeTables) (m : MapOrder) (n : String) : List String :=
  [n, ToUpper U n, Title U n, reverse n, toLeetspeak m n]

/-- Family B, the base followed by each word ending (lines 136 to 142). -/
def familyB (n : String) : List String :=
  wordEndings.map (fun e => n ++ e)

/-- Family C, the four forms for each CTF term (lines 145 to 147). -/
def familyC (n : String) : List String :=
  ctfTerms.flatMap (fun term => [n ++ term, term ++ n, n ++ "_" ++ term, term ++ "_" ++ n])

/-- Family D, the two forms for each year (lines 150 to 152). -/
def familyD (n : String) : List String :=
  years.flatMap (fun year => [n ++ year, year ++ n])

/-- Family E, the two forms for each keyboard pattern (lines 155 to 157). -/
def familyE (n : String) : List String :=
  keyboards.flatMap (fun kb => [n ++ kb, kb ++ n])

/-- What one pass of the number loop appends (lines 161 to 164). -/
def numberBlock (n : String) (i : Nat) : List String :=
  (if i < 10 then [n ++ ("0" ++ sprintfD i)] else []) ++ [n ++ sprintfD i]

/-- Family F, the number patterns for `i` from 0 to 99 (lines 160 to 165). -/
def familyF (n : String) : List String :=
  (List.range 100).flatMap (numberBlock n)

/-- Family G, the three forms for each entry of `prefixes` (lines 168 to 171). -/
def familyG (n : String) : List String :=
  prefixes.flatMap (fun p => [p ++ n, p ++ "_" ++ n, p ++ "-" ++ n])

/-- What the loop over `combos` appends for one combo (lines 197 to 205). -/
def comboBlock (combo : String) : List String :=
  [combo] ++ suffixes.map (fun s => combo ++ s) ++ years.map (fun year => combo ++ year)

/-- Family H, what the loop over `context` appends (lines 174 to 207), the
first call of `toLeetspeak` in it being call number `calls`. -/
def familyH (U : UnicodeTables) (ord : Nat → MapOrder) (n : String) :
    List String → Nat → List String
  | [], _ => []
  | word :: rest, calls =>
    if word.utf8ByteSize < 3 ∨ word.utf8ByteSize > 20 then familyH U ord n rest calls
    else (combos U (ord calls) n word).flatMap comboBlock ++ familyH U ord n rest (calls + 1)

/-- Families A to G in the order the code appends them. -/
def baseFamilies (U : UnicodeTables) (m : MapOrder) (n : String) : List String :=
  familyA U m n ++ familyB n ++ familyC n ++ familyD n ++ familyE n ++ familyF n ++ familyG n

/-- What one pass `ReplaceAll(result, old, new)` of `toLeetspeak` does to a
single character when `old` and `new` are one character each. -/
def substChar (p : String × String) (c : Char) : Char :=
  if p.1.data = [c] then p.2.data.headD c else c

/-- The number of characters `0` in a string. -/
def zeros (s : String) : Nat :=
  s.data.count '0'

/-! ## The context filter -/

/-- The character class `[a-zA-Z0-9]` of the pattern of `filterWords`. -/
def isAlnum (r : Char) : Bool :=
  ('a'.toNat ≤ r.toNat ∧ r.toNat ≤ 'z'.toNat) ∨
  ('A'.toNat ≤ r.toNat ∧ r.toNat ≤ 'Z'.toNat) ∨
  ('0'.toNat ≤ r.toNat ∧ r.toNat ≤ '9'.toNat)

/-- Go `valid.MatchString(w)` for `valid = regexp.MustCompile("^[a-zA-Z0-9]+$")`.
Without the multi-line flag `^` and `$` stand for the beginning and the end of
the text, so the pattern matches the non-empty strings made of the class. -/
def validMatchString (w : String) : Bool :=
  !w.data.isEmpty && w.data.all isAlnum

/-- The loop of `filterWords`: `seen` is the map `seen` (a key that was never
set reads `false`), `result` the slice built so far. -/
def filterWords.loop (U : UnicodeTables) :
    List String → (String → Bool) → List String → List String
  | [], _, result => result
  | word :: rest, seen, result =>
    let w := ToLower U word
    if validMatchString w && !seen w && decide (w.utf8ByteSize > 2) then
      filterWords.loop U rest (fun k => if k = w then true else seen k) (result ++ [w])
    else
      filterWords.loop U rest seen result

/-- The function `filterWords` of `main.go`. -/
def filterWords (U : UnicodeTables) (raw : List String) : List String :=
  filterWords.loop U raw (fun _ => false) []

/-- Keeping only the first occurrence of each word, in first-seen order. -/
def keepFirst : List String → List String
  | [] => []
  | x :: xs => x :: (keepFirst xs).filter (fun y => y ≠ x)

/-- The Context Filter as the spec words it: discard each fragment that fails
the pattern, lowercase the remaining fragments, discard those of length 2 or
less, keep only the first occurrence of each word. -/
def filterWordsSpec (U : UnicodeTables) (raw : List String) : List String :=
  keepFirst (((raw.filter validMatchString).map (ToLower U)).filter
    (fun w => decide (w.length > 2)))

/-- Case tables with one entry of Go's tables above U+007F, the lower case `k`
of U+212A KELVIN SIGN; every other code point is left caseless. -/
def kelvinTables : UnicodeTables where
  lower := fun r => if r = Char.ofNat 0x212A then 'k' else r
  upper := fun r => r
  title := fun r => r
  isLetter := fun r => r = Char.ofNat 0x212A
  isDigit := fun _ => false
  isSpace := fun _ => false

/-- A lowercase ASCII letter or an ASCII digit. -/
def isLowerAlnum (r : Char) : Bool :=
  ('a'.toNat ≤ r.toNat ∧ r.toNat ≤ 'z'.toNat) ∨ ('0'.toNat ≤ r.toNat ∧ r.toNat ≤ '9'.toNat)

/-- A line-break character: line feed or carriage return. -/
def isLineBreak (r : Char) : Bool :=
  r = '\n' || r = '\r'

/-- Whether a string holds a line-break character. -/
def hasLineBreak (s : String) : Bool :=
  s.data.any isLineBreak

/-! ## Lemmas on the loops -/

/-- A loop that appends `f a` to the accumulator for each `a` builds the
accumulator followed by the blocks `f a` in order. -/
theorem foldl_append_flatMap {α β : Type} (f : α → List β) (l : List α) (init : List β) :
    l.foldl (fun acc a => acc ++ f a) init = init ++ l.flatMap f := by
  induction l generalizing init with
  | nil => simp
  | cons a l ih => simp [ih, List.append_assoc]

/-- Appending one element per pass is a `map`. -/
theorem flatMap_single {α β : Type} (f : α → β) (l : List α) :
    l.flatMap (fun a => [f a]) = l.map f := by
  induction l with
  | nil => rfl
  | cons a l ih => simp [List.flatMap_cons, ih]

/-- The loop over `combos` appends the block of each combo in turn. -/
theorem comboLoop_eq (results cs : List String) :
    comboLoop results cs = results ++ cs.flatMap comboBlock := by
  unfold comboLoop
  have h : (fun (results : List String) (combo : String) =>
      let results := results ++ [combo]
      let results := suffixes.foldl (fun results s => results ++ [combo ++ s]) results
      years.foldl (fun results year => results ++ [combo ++ year]) results) =
      fun results combo => results ++ comboBlock combo := by
    funext results combo
    simp only [comboBlock]
    rw [foldl_append_flatMap (fun s => [combo ++ s]),
      foldl_append_flatMap (fun year => [combo ++ year])]
    rw [flatMap_single, flatMap_single]
    simp only [List.append_assoc]
  rw [h, foldl_append_flatMap]

/-- The loop over `context` appends family H to `results`. -/
theorem contextLoop_eq (U : UnicodeTables) (ord : Nat → MapOrder) (n : String)
    (context : List String) :
    ∀ (calls : Nat) (results : List String),
      contextLoop U ord n context calls results = results ++ familyH U ord n context calls := by
  induction context with
  | nil => intro calls results; simp [contextLoop, familyH]
  | cons word rest ih =>
    intro calls results
    unfold contextLoop familyH
    split
    · exact ih calls results
    · rw [ih, comboLoop_eq, List.append_assoc]

/-- The slice `results` is families A to G for the normalized base, followed
by family H. -/
theorem collectResults_eq (U : UnicodeTables) (ord : Nat → MapOrder) (base : String)
    (context : List String) :
    collectResults U ord base context =
      baseFamilies U (ord 0) (normalize U base) ++
        familyH U ord (normalize U base) context 1 := by
  have hF : ∀ n : String, (fun (results : List String) (i : Nat) =>
      let results := if i < 10 then results ++ [n ++ ("0" ++ sprintfD i)] else results
      results ++ [n ++ sprintfD i]) = fun results i => results ++ numberBlock n i := by
    intro n
    funext results i
    by_cases h : i < 10 <;> simp [numberBlock, h]
  unfold collectResults
  simp only [hF, contextLoop_eq]
  rw [foldl_append_flatMap, foldl_append_flatMap, foldl_append_flatMap, foldl_append_flatMap,
    foldl_append_flatMap]
  simp [baseFamilies, familyA, familyB, familyC, familyD, familyE, familyF, familyG, normalize,
    wordEndings, List.append_assoc]

/-- The invariant of the loop "Remove duplicates": when `seen` marks exactly
the members of `unique` and `unique` has no repetition, the slice returned has
no repetition and holds `unique` and the non-empty words of the input. -/
theorem removeDuplicates_spec (l : List String) :
    ∀ (seen : String → Bool) (unique : List String),
      (∀ w, seen w = true ↔ w ∈ unique) → unique.Nodup →
      (removeDuplicates l seen unique).Nodup ∧
      ∀ x, x ∈ removeDuplicates l seen unique ↔ x ∈ unique ∨ (x ∈ l ∧ x ≠ "") := by
  induction l with
  | nil =>
    intro seen unique _ hn
    simp [removeDuplicates, hn]
  | cons word rest ih =>
    intro seen unique hs hn
    unfold removeDuplicates
    by_cases h : (!seen word && word != "") = true
    · rw [if_pos h]
      have h1 : seen word = false := by
        cases hsw : seen word <;> simp_all
      have h2 : word ≠ "" := by
        intro hw
        simp [hw] at h
      have hnot : word ∉ unique := by
        intro hm
        rw [(hs word).2 hm] at h1
        exact Bool.noConfusion h1
      have hs2 : ∀ w, (fun k => if k = word then true else seen k) w = true ↔
          w ∈ unique ++ [word] := by
        intro w
        by_cases hw : w = word
        · simp [hw]
        · simp [hw, hs w]
      have hn2 : (unique ++ [word]).Nodup := by
        rw [List.nodup_append]
        refine ⟨hn, List.nodup_singleton _, ?_⟩
        intro a ha hb
        rw [List.mem_singleton] at hb
        exact hnot (hb ▸ ha)
      obtain ⟨k1, k2⟩ := ih _ _ hs2 hn2
      refine ⟨k1, fun x => ?_⟩
      rw [k2 x, List.mem_append, List.mem_singleton, List.mem_cons]
      constructor
      · rintro ((hx | hx) | ⟨hx, hne⟩)
        · exact Or.inl hx
        · exact Or.inr ⟨Or.inl hx, hx ▸ h2⟩
        · exact Or.inr ⟨Or.inr hx, hne⟩
      · rintro (hx | ⟨hx | hx, hne⟩)
        · exact Or.inl (Or.inl hx)
        · exact Or.inl (Or.inr hx)
        · exact Or.inr ⟨hx, hne⟩
    · rw [if_neg h]
      obtain ⟨k1, k2⟩ := ih seen unique hs hn
      refine ⟨k1, fun x => ?_⟩
      rw [k2 x]
      simp only [List.mem_cons]
      constructor
      · rintro (hx | ⟨hx, hne⟩)
        · exact Or.inl hx
        · exact Or.inr ⟨Or.inr hx, hne⟩
      · rintro (hx | ⟨hx | hx, hne⟩)
        · exact Or.inl hx
        · subst hx
          have : seen x = true := by
            cases hsx : seen x
            · exfalso
              apply h
              simp [hsx, hne]
            · rfl
          exact Or.inl ((hs x).1 this)
        · exact Or.inr ⟨hx, hne⟩

/-! ## Leetspeak is a character-by-character table lookup -/

/-- Replacing a one-character `old` by a one-character `new` maps each
character on its own. -/
theorem scan_single (a b : Char) (cs : List Char) :
    ReplaceAll.scan [a] [b] 0 cs = cs.map (fun c => if c = a then b else c) := by
  induction cs with
  | nil => rfl
  | cons c cs ih =>
    unfold ReplaceAll.scan
    by_cases h : c = a
    · subst h
      simp [List.isPrefixOf, ih]
    · have h2 : ¬ a = c := fun e => h e.symm
      simp [List.isPrefixOf, ih, h, h2]

/-- Every key and every value of `replacements` is one character long. -/
theorem replacements_single :
    ∀ p ∈ replacements, p.1.data.length = 1 ∧ p.2.data.length = 1 := by
  decide

/-- No value of `replacements` is a key of `replacements`. -/
theorem replacements_value_not_key :
    ∀ p ∈ replacements, ∀ q ∈ replacements, q.1.data ≠ p.2.data := by
  decide

/-- The table of the spec agrees with `replacements` on every key. -/
theorem leetChar_key :
    ∀ p ∈ replacements, leetChar (p.1.data.headD 'x') = p.2.data.headD 'x' := by
  decide

/-- The table of the spec leaves a character that is no key unchanged. -/
theorem leetChar_not_key (c : Char) (h : ∀ p ∈ replacements, p.1.data ≠ [c]) :
    leetChar c = c := by
  simp [replacements] at h
  obtain ⟨h1, h2, h3, h4, h5, h6, h7, h8, h9, h10, h11, h12, h13, h14, h15, h16⟩ := h
  unfold leetChar
  rw [if_neg, if_neg, if_neg, if_neg, if_neg, if_neg, if_neg, if_neg] <;>
    rintro (e | e) <;> subst e <;> simp_all

/-- One pass of the loop of `toLeetspeak` is `substChar` on every character. -/
theorem ReplaceAll_replacement (p : String × String) (hp : p ∈ replacements) (s : String) :
    ReplaceAll s p.1 p.2 = Map (substChar p) s := by
  obtain ⟨h1, h2⟩ := replacements_single p hp
  obtain ⟨a, ha⟩ := List.length_eq_one.1 h1
  obtain ⟨b, hb⟩ := List.length_eq_one.1 h2
  unfold ReplaceAll Map
  rw [if_neg (by rw [ha]; exact List.cons_ne_nil _ _), ha, hb, scan_single]
  congr 1
  apply List.map_congr_left
  intro c _
  by_cases h : c = a
  · simp [substChar, ha, hb, h]
  · have h' : ¬ a = c := fun e => h e.symm
    simp [substChar, ha, hb, h, h']

/-- The passes of `order` applied to one character. -/
theorem toLeetspeakIn_eq_map (order : List (String × String))
    (h : ∀ p ∈ order, p ∈ replacements) (s : String) :
    toLeetspeakIn order s =
      ⟨s.data.map (fun c => order.foldl (fun c p => substChar p c) c)⟩ := by
  induction order generalizing s with
  | nil => simp [toLeetspeakIn]
  | cons p rest ih =>
    have hrest : ∀ q ∈ rest, q ∈ replacements := fun q hq => h q (List.mem_cons_of_mem _ hq)
    have := ih hrest (ReplaceAll s p.1 p.2)
    unfold toLeetspeakIn at this ⊢
    rw [List.foldl_cons, this, ReplaceAll_replacement p (h p (List.mem_cons_self _ _))]
    simp only [Map, List.map_map]
    rfl

/-- A character that is no key of `order` passes through unchanged. -/
theorem foldl_substChar_not_key (order : List (String × String)) (c : Char)
    (h : ∀ p ∈ order, p.1.data ≠ [c]) :
    order.foldl (fun c p => substChar p c) c = c := by
  induction order with
  | nil => rfl
  | cons p rest ih =>
    rw [List.foldl_cons]
    have hp : substChar p c = c := by
      unfold substChar
      rw [if_neg (h p (List.mem_cons_self _ _))]
    rw [hp]
    exact ih (fun q hq => h q (List.mem_cons_of_mem _ hq))

/-- A key of `order` ends as its table value: the pass of that key rewrites
it, and no later pass touches the value. -/
theorem foldl_substChar_key (order : List (String × String))
    (h : ∀ p ∈ order, p ∈ replacements) (c : Char)
    (hk : ∃ p ∈ order, p.1.data = [c]) :
    order.foldl (fun c p => substChar p c) c = leetChar c := by
  induction order with
  | nil =>
    obtain ⟨p, hp, _⟩ := hk
    cases hp
  | cons p rest ih =>
    have hrest : ∀ q ∈ rest, q ∈ replacements := fun q hq => h q (List.mem_cons_of_mem _ hq)
    have hpr : p ∈ replacements := h p (List.mem_cons_self _ _)
    rw [List.foldl_cons]
    by_cases hpc : p.1.data = [c]
    · have hv : substChar p c = leetChar c := by
        have hkey := leetChar_key p hpr
        obtain ⟨b, hb⟩ := List.length_eq_one.1 (replacements_single p hpr).2
        unfold substChar
        rw [if_pos hpc]
        rw [hpc, hb] at hkey
        rw [hb]
        simpa using hkey.symm
      rw [hv]
      apply foldl_substChar_not_key
      intro q hq hqc
      have hb := (replacements_single p hpr).2
      obtain ⟨b, hb⟩ := List.length_eq_one.1 hb
      have hkey := leetChar_key p hpr
      rw [hpc, hb] at hkey
      have hbc : leetChar c = b := by simpa using hkey
      apply replacements_value_not_key p hpr q (hrest q hq)
      rw [hqc, hb, hbc]
    · have hp : substChar p c = c := by
        unfold substChar
        rw [if_neg hpc]
      rw [hp]
      apply ih hrest
      obtain ⟨q, hq, hqc⟩ := hk
      rcases List.mem_cons.1 hq with rfl | hq
      · exact absurd hqc hpc
      · exact ⟨q, hq, hqc⟩

/-- Whatever the order of the passes, the loop of `toLeetspeak` computes the
table lookup of the spec. -/
theorem toLeetspeakIn_eq_variant (order : List (String × String))
    (h : order.Perm replacements) (s : String) :
    toLeetspeakIn order s = leetspeakVariant s := by
  have hsub : ∀ p ∈ order, p ∈ replacements := fun p hp => h.mem_iff.1 hp
  rw [toLeetspeakIn_eq_map order hsub]
  unfold leetspeakVariant
  congr 1
  apply List.map_congr_left
  intro c _
  by_cases hk : ∃ p ∈ order, p.1.data = [c]
  · exact foldl_substChar_key order hsub c hk
  · have hn : ∀ p ∈ order, p.1.data ≠ [c] := fun p hp hpc => hk ⟨p, hp, hpc⟩
    rw [foldl_substChar_not_key order c hn]
    exact (leetChar_not_key c (fun p hp => hn p (h.mem_iff.2 hp))).symm

/-- The function `toLeetspeak` is the table lookup under every enumeration. -/
theorem toLeetspeak_eq_variant (m : MapOrder) (s : String) :
    toLeetspeak m s = leetspeakVariant s :=
  toLeetspeakIn_eq_variant m.pairs m.is_perm s

/-- C10: for every string and every order in which the 16 replacement pairs
are applied by successive replace-all passes, `toLeetspeak` returns the string
obtained by mapping each character on its own through the table of the spec,
so two enumeration orders of the map give the same result. -/
theorem toLeetspeak_order_independent (order order2 : List (String × String))
    (h : order.Perm replacements) (h2 : order2.Perm replacements) (s : String) :
    toLeetspeakIn order s = leetspeakVariant s ∧
      toLeetspeakIn order s = toLeetspeakIn order2 s := by
  refine ⟨toLeetspeakIn_eq_variant order h s, ?_⟩
  rw [toLeetspeakIn_eq_variant order h s, toLeetspeakIn_eq_variant order2 h2 s]

/-- C10 at a concrete input: the map has 16 entries, and applied in source
order or in the opposite order the passes turn `Secret` into `$3cr37`. -/
theorem toLeetspeak_order_independent_witness :
    replacements.length = 16 ∧
    replacements.reverse.Perm replacements ∧ replacements.Perm replacements ∧
    (toLeetspeakIn replacements.reverse "Secret" = leetspeakVariant "Secret" ∧
      toLeetspeakIn replacements.reverse "Secret" = toLeetspeakIn replacements "Secret") ∧
    toLeetspeakIn replacements "Secret" = "$3cr37" :=
  ⟨by decide, List.reverse_perm _, List.Perm.refl _,
    toLeetspeak_order_independent _ _ (List.reverse_perm _) (List.Perm.refl _) "Secret",
    by decide⟩

/-! ## Facts about strings -/

/-- A string is empty exactly when it has no character. -/
theorem eq_empty_iff (s : String) : s = "" ↔ s.data = [] := by
  rw [String.ext_iff]

/-- A concatenation is empty only when both parts are. -/
theorem append_eq_empty_iff (s t : String) : s ++ t = "" ↔ s = "" ∧ t = "" := by
  simp only [eq_empty_iff, String.data_append, List.append_eq_nil]

/-- The function `Map` keeps the number of characters. -/
theorem Map_data_length (f : Char → Char) (s : String) :
    (Map f s).data.length = s.data.length := by
  simp [Map]

/-- The closure of `Title` writes one character for each one it reads. -/
theorem Title_go_length (U : UnicodeTables) (rs : List Char) :
    ∀ prev, (Title.go U prev rs).length = rs.length := by
  induction rs with
  | nil => intro prev; rfl
  | cons r rs ih => intro prev; simp [Title.go, ih]

/-- The function `Title` keeps the number of characters. -/
theorem Title_data_length (U : UnicodeTables) (s : String) :
    (Title U s).data.length = s.data.length :=
  Title_go_length U s.data ' '

/-- A swap keeps the length of the slice. -/
theorem swapRunes_length (r : List Char) (i j : Nat) :
    (swapRunes r i j).length = r.length := by
  unfold swapRunes
  split <;> simp

/-- The loop of `reverse` keeps the length of the slice. -/
theorem reverse_loop_length (fuel : Nat) :
    ∀ (r : List Char) (i j : Int), (reverse.loop fuel r i j).length = r.length := by
  induction fuel with
  | zero => intro r i j; rfl
  | succ fuel ih =>
    intro r i j
    unfold reverse.loop
    split
    · rw [ih, swapRunes_length]
    · rfl

/-- The function `reverse` keeps the number of characters. -/
theorem reverse_data_length (s : String) : (reverse s).data.length = s.data.length :=
  reverse_loop_length _ _ _ _

/-- The element right after a prefix. -/
theorem getElem?_append_cons (pre : List Char) (x : Char) (rest : List Char) (k : Nat)
    (hk : k = pre.length) : (pre ++ x :: rest)[k]? = some x := by
  subst hk
  induction pre with
  | nil => simp
  | cons p pre ih => simpa using ih

/-- Writing right after a prefix. -/
theorem set_append_cons (pre : List Char) (x y : Char) (rest : List Char) (k : Nat)
    (hk : k = pre.length) : (pre ++ x :: rest).set k y = pre ++ y :: rest := by
  subst hk
  induction pre with
  | nil => rfl
  | cons p pre ih => simp [ih]

/-- A swap of the two ends of the middle part of a slice. -/
theorem swapRunes_ends (pre mid post : List Char) (a b : Char) (i j : Nat)
    (hi : i = pre.length) (hj : j = pre.length + mid.length + 1) :
    swapRunes (pre ++ a :: (mid ++ b :: post)) i j = pre ++ b :: (mid ++ a :: post) := by
  have e1 : pre ++ a :: (mid ++ b :: post) = (pre ++ a :: mid) ++ b :: post := by simp
  have e2 : pre ++ b :: (mid ++ b :: post) = (pre ++ b :: mid) ++ b :: post := by simp
  have e3 : pre ++ b :: (mid ++ a :: post) = (pre ++ b :: mid) ++ a :: post := by simp
  have h1 : (pre ++ a :: (mid ++ b :: post))[i]? = some a := getElem?_append_cons _ _ _ _ hi
  have h2 : (pre ++ a :: (mid ++ b :: post))[j]? = some b := by
    rw [e1]
    exact getElem?_append_cons _ _ _ _ (by simp [hj]; omega)
  unfold swapRunes
  rw [h1, h2]
  simp only
  rw [set_append_cons pre a b _ i hi, e2, set_append_cons (pre ++ b :: mid) b a post j
    (by simp [hj]; omega), e3]

/-- The loop of `reverse` reverses the part of the slice between `i` and `j`
when it is given one pass of fuel for each element of that part. -/
theorem reverse_loop_spec (fuel : Nat) :
    ∀ (pre mid post : List Char), mid.length ≤ fuel →
      reverse.loop fuel (pre ++ (mid ++ post)) (pre.length : Int)
        ((pre.length : Int) + (mid.length : Int) - 1) = pre ++ (mid.reverse ++ post) := by
  induction fuel with
  | zero =>
    intro pre mid post h
    have : mid = [] := List.length_eq_zero.1 (Nat.le_zero.1 h)
    subst this
    rfl
  | succ fuel ih =>
    intro pre mid post h
    unfold reverse.loop
    match mid, h with
    | [], _ => simp
    | [a], _ => simp
    | a :: c :: t, h =>
      obtain ⟨mid', b, hb⟩ : ∃ mid' b, c :: t = mid' ++ [b] := by
        rcases List.eq_nil_or_concat (c :: t) with h0 | ⟨L, b, hL⟩
        · exact absurd h0 (List.cons_ne_nil _ _)
        · exact ⟨L, b, by rw [hL, List.concat_eq_append]⟩
      rw [hb] at h ⊢
      simp only [List.length_cons, List.length_append, List.length_nil] at h
      have hlt : (pre.length : Int) <
          (pre.length : Int) + ((a :: (mid' ++ [b])).length : Int) - 1 := by
        simp only [List.length_cons, List.length_append, List.length_nil]
        omega
      rw [if_pos hlt]
      have hsw : swapRunes (pre ++ (a :: (mid' ++ [b]) ++ post)) (pre.length : Int).toNat
          ((pre.length : Int) + ((a :: (mid' ++ [b])).length : Int) - 1).toNat =
          (pre ++ [b]) ++ (mid' ++ a :: post) := by
        have := swapRunes_ends pre mid' post a b (pre.length : Int).toNat
          ((pre.length : Int) + ((a :: (mid' ++ [b])).length : Int) - 1).toNat
          (by simp) (by simp only [List.length_cons, List.length_append, List.length_nil]; omega)
        simpa using this
      rw [hsw]
      have e1 : (pre.length : Int) + 1 = ((pre ++ [b]).length : Int) := by simp
      have e2 : (pre.length : Int) + ((a :: (mid' ++ [b])).length : Int) - 1 - 1 =
          ((pre ++ [b]).length : Int) + (mid'.length : Int) - 1 := by
        simp only [List.length_cons, List.length_append, List.length_nil]
        push_cast
        omega
      rw [e1, e2, ih (pre ++ [b]) mid' (a :: post) (by omega)]
      simp

/-- The function `reverse` returns the characters in reverse order: the fuel
of the loop is never used up. -/
theorem reverse_eq (s : String) : reverse s = ⟨s.data.reverse⟩ := by
  unfold reverse
  have := reverse_loop_spec s.data.length [] s.data [] (Nat.le_refl _)
  simp only [List.nil_append, List.append_nil, List.length_nil] at this
  rw [String.ext_iff]
  simpa using this

/-- The function `toLeetspeak` keeps the number of characters. -/
theorem toLeetspeak_data_length (m : MapOrder) (s : String) :
    (toLeetspeak m s).data.length = s.data.length := by
  rw [toLeetspeak_eq_variant]
  simp [leetspeakVariant]

/-- A string of one character or more is not the empty string. -/
theorem ne_empty_of_length (s t : String) (h : s.data.length = t.data.length)
    (ht : t ≠ "") : s ≠ "" := by
  intro hs
  apply ht
  rw [eq_empty_iff] at hs ⊢
  rw [hs] at h
  exact List.length_eq_zero.1 h.symm

/-- Removing the one-character `old` by an empty `new` drops that character. -/
theorem scan_remove (a : Char) (cs : List Char) :
    ReplaceAll.scan [a] [] 0 cs = cs.filter (fun c => c ≠ a) := by
  induction cs with
  | nil => rfl
  | cons c cs ih =>
    unfold ReplaceAll.scan
    by_cases h : c = a
    · subst h
      simp [List.isPrefixOf, ih]
    · have h2 : ¬ a = c := fun e => h e.symm
      simp [List.isPrefixOf, ih, h, h2]

/-- Line 113 on a string: lowercase every character, drop the spaces. -/
theorem normalize_data (U : UnicodeTables) (b : String) :
    (normalize U b).data = (b.data.map (unicodeToLower U)).filter (fun c => c ≠ ' ') := by
  unfold normalize ReplaceAll
  rw [if_neg (by decide)]
  exact scan_remove ' ' _

/-- A base that is already lowercased and has no space is left as it is. -/
theorem normalize_eq_self (U : UnicodeTables) (b : String) (hl : ToLower U b = b)
    (hs : ' ' ∉ b.data) : normalize U b = b := by
  rw [String.ext_iff, normalize_data]
  have h1 : b.data.map (unicodeToLower U) = b.data := by
    have := congrArg String.data hl
    simpa [ToLower, Map] using this
  rw [h1, List.filter_eq_self]
  intro c hc
  have : c ≠ ' ' := fun e => hs (e ▸ hc)
  simpa using this

/-- A string is a candidate exactly when it was appended to `results` and is
not the empty string. -/
theorem mem_generateCombinations_iff (U : UnicodeTables) (ord : Nat → MapOrder)
    (base : String) (context : List String) (x : String) :
    x ∈ generateCombinations U ord base context ↔
      x ∈ collectResults U ord base context ∧ x ≠ "" := by
  unfold generateCombinations
  rw [(removeDuplicates_spec _ (fun _ => false) [] (by simp) List.nodup_nil).2 x]
  simp

/-! ## Membership in the candidate list -/

/-- Family A does not depend on the enumeration used by `toLeetspeak`. -/
theorem familyA_order (U : UnicodeTables) (m m2 : MapOrder) (n : String) :
    familyA U m n = familyA U m2 n := by
  simp [familyA, toLeetspeak_eq_variant]

/-- A non-empty string of families A to G is a candidate, whatever the context. -/
theorem mem_of_mem_baseFamilies (U : UnicodeTables) (ord : Nat → MapOrder) (m : MapOrder)
    (b : String) (c : List String) (x : String)
    (hx : x ∈ baseFamilies U m (normalize U b)) (hne : x ≠ "") :
    x ∈ generateCombinations U ord b c := by
  rw [mem_generateCombinations_iff, collectResults_eq]
  refine ⟨List.mem_append_left _ ?_, hne⟩
  unfold baseFamilies at hx ⊢
  rw [familyA_order U (ord 0) m]
  exact hx

/-- A non-empty string of family H is a candidate. -/
theorem mem_of_mem_familyH (U : UnicodeTables) (ord : Nat → MapOrder)
    (b : String) (c : List String) (x : String)
    (hx : x ∈ familyH U ord (normalize U b) c 1) (hne : x ≠ "") :
    x ∈ generateCombinations U ord b c := by
  rw [mem_generateCombinations_iff, collectResults_eq]
  exact ⟨List.mem_append_right _ hx, hne⟩

/-- The slice `combos` does not depend on the enumeration used by `toLeetspeak`. -/
theorem combos_order (U : UnicodeTables) (m m2 : MapOrder) (n w : String) :
    combos U m n w = combos U m2 n w := by
  simp [combos, toLeetspeak_eq_variant]

/-- A word of admissible length puts the block of each of its combos in family H. -/
theorem comboBlock_subset_familyH (U : UnicodeTables) (ord : Nat → MapOrder) (m : MapOrder)
    (n w : String) (c : List String) (hw : w ∈ c)
    (h3 : 3 ≤ w.utf8ByteSize) (h20 : w.utf8ByteSize ≤ 20) :
    ∀ (calls : Nat), ∀ combo ∈ combos U m n w, ∀ x ∈ comboBlock combo,
      x ∈ familyH U ord n c calls := by
  induction c with
  | nil => cases hw
  | cons word rest ih =>
    intro calls combo hcombo x hx
    unfold familyH
    by_cases hskip : word.utf8ByteSize < 3 ∨ word.utf8ByteSize > 20
    · rw [if_pos hskip]
      rcases List.mem_cons.1 hw with rfl | hw2
      · omega
      · exact ih hw2 calls combo hcombo x hx
    · rw [if_neg hskip]
      rcases List.mem_cons.1 hw with rfl | hw2
      · apply List.mem_append_left
        rw [List.mem_flatMap]
        refine ⟨combo, ?_, hx⟩
        rw [combos_order U (ord calls) m]
        exact hcombo
      · exact List.mem_append_right _ (ih hw2 (calls + 1) combo hcombo x hx)

/-- A word passed over by `continue` adds nothing to family H. -/
theorem familyH_skip (U : UnicodeTables) (ord : Nat → MapOrder) (n w : String)
    (pre post : List String) (h : w.utf8ByteSize < 3 ∨ w.utf8ByteSize > 20) :
    ∀ (calls : Nat),
      familyH U ord n (pre ++ [w] ++ post) calls = familyH U ord n (pre ++ post) calls := by
  induction pre with
  | nil =>
    intro calls
    simp only [List.nil_append, List.singleton_append]
    rw [familyH, if_pos h]
  | cons word rest ih =>
    intro calls
    simp only [List.cons_append]
    unfold familyH
    split
    · exact ih calls
    · rw [ih (calls + 1)]

/-- A word with a byte is not the empty string. -/
theorem ne_empty_of_utf8ByteSize (w : String) (h : 0 < w.utf8ByteSize) : w ≠ "" := by
  intro hw
  subst hw
  exact absurd h (by decide)

/-- Every combo of a non-empty word is a non-empty string. -/
theorem combos_ne_empty (U : UnicodeTables) (m : MapOrder) (n w : String) (hw : w ≠ "") :
    ∀ combo ∈ combos U m n w, combo ≠ "" := by
  intro combo hc
  simp only [combos, List.mem_cons, List.mem_singleton, List.not_mem_nil, or_false] at hc
  rcases hc with rfl | rfl | rfl | rfl | rfl | rfl | rfl | rfl | rfl | rfl | rfl | rfl | rfl | rfl
  · exact hw
  · exact ne_empty_of_length _ _ (Map_data_length _ _) hw
  · exact ne_empty_of_length _ _ (Map_data_length _ _) hw
  · exact ne_empty_of_length _ _ (Title_data_length _ _) hw
  · exact ne_empty_of_length _ _ (reverse_data_length _) hw
  · exact ne_empty_of_length _ _ (toLeetspeak_data_length _ _) hw
  all_goals simp [append_eq_empty_iff, hw]

/-! ## The candidate list has no repetition and no empty string -/

/-- C1: for every base and every context list, the list returned by
`generateCombinations` contains each string at most once. -/
theorem generateCombinations_nodup (U : UnicodeTables) (ord : Nat → MapOrder)
    (base : String) (context : List String) :
    (generateCombinations U ord base context).Nodup :=
  (removeDuplicates_spec _ (fun _ => false) [] (by simp) List.nodup_nil).1

/-- C2: for every base (the empty string and a string of spaces included) and
every context list (one holding the empty string included), the list returned
by `generateCombinations` never contains the empty string. -/
theorem generateCombinations_no_empty (U : UnicodeTables) (ord : Nat → MapOrder)
    (base : String) (context : List String) :
    "" ∉ generateCombinations U ord base context := by
  intro h
  have h2 := (removeDuplicates_spec (collectResults U ord base context)
    (fun _ => false) [] (by simp) List.nodup_nil).2 ""
  unfold generateCombinations at h
  rw [h2] at h
  simp at h

/-! ## The end-to-end example -/

/-- For the base `root` and the context `admin` the slice `results` is the
same under all case tables and all enumerations of the map: the input is
ASCII, and the passes of `toLeetspeak` commute. -/
theorem collectResults_root_admin (U : UnicodeTables) (ord : Nat → MapOrder) :
    collectResults U ord "root" ["admin"] =
      baseFamilies asciiTables sourceOrder "root" ++
        familyH asciiTables (fun _ => sourceOrder) "root" ["admin"] 1 := by
  rw [collectResults_eq]
  have hn : normalize U "root" = "root" := rfl
  have hA : familyA U (ord 0) "root" = familyA asciiTables sourceOrder "root" := by
    rw [familyA_order U (ord 0) sourceOrder]
    rfl
  have hC : combos U (ord 1) "root" "admin" = combos asciiTables sourceOrder "root" "admin" := by
    rw [combos_order U (ord 1) sourceOrder]
    rfl
  have hlen : ¬ ("admin".utf8ByteSize < 3 ∨ "admin".utf8ByteSize > 20) := by decide
  have hB : baseFamilies U (ord 0) "root" = baseFamilies asciiTables sourceOrder "root" := by
    unfold baseFamilies
    rw [hA]
  have hH : familyH U ord "root" ["admin"] 1 =
      familyH asciiTables (fun _ => sourceOrder) "root" ["admin"] 1 := by
    simp only [familyH, if_neg hlen, hC]
  rw [hn, hB, hH]

set_option maxRecDepth 100000 in
/-- C3, as the code behaves: the candidates for the base `root` and the context
`admin` include root, ROOT, Root, toor, adminroot, rootadmin, admin_root,
root_admin, rootadmin123 and root2024, and the leetspeak form `r007` (the table
maps t to 7); they include neither `r00t` nor `root123` (the suffix list is
appended to context combos only). -/
theorem root_admin_candidates (U : UnicodeTables) (ord : Nat → MapOrder) :
    (∀ x ∈ ["root", "ROOT", "Root", "toor", "r007", "adminroot", "rootadmin", "admin_root",
        "root_admin", "rootadmin123", "root2024"],
      x ∈ generateCombinations U ord "root" ["admin"]) ∧
    "r00t" ∉ generateCombinations U ord "root" ["admin"] ∧
    "root123" ∉ generateCombinations U ord "root" ["admin"] := by
  simp only [mem_generateCombinations_iff, collectResults_root_admin]
  decide

set_option maxRecDepth 100000 in
/-- C3 fails as stated: of the twelve strings, `r00t` and `root123` are not
candidates for the base `root` and the context `admin`. -/
theorem root_admin_counterexample :
    "r00t" ∉ generateCombinations asciiTables (fun _ => sourceOrder) "root" ["admin"] ∧
    "root123" ∉ generateCombinations asciiTables (fun _ => sourceOrder) "root" ["admin"] := by
  simp only [mem_generateCombinations_iff, collectResults_root_admin]
  decide

/-! ## Coverage of the base and of the context words -/

/-- C4, as the code behaves: for every non-empty base that is already
lowercased with spaces removed, and every context list, the candidates include
the base, its upper-case form and its leetspeak form. -/
theorem base_coverage (U : UnicodeTables) (ord : Nat → MapOrder) (b : String)
    (c : List String) (hl : ToLower U b = b) (hs : ' ' ∉ b.data) (hne : b ≠ "") :
    b ∈ generateCombinations U ord b c ∧
    ToUpper U b ∈ generateCombinations U ord b c ∧
    ∀ m : MapOrder, toLeetspeak m b ∈ generateCombinations U ord b c := by
  have hn := normalize_eq_self U b hl hs
  refine ⟨?_, ?_, fun m => ?_⟩
  · apply mem_of_mem_baseFamilies U ord sourceOrder b c b _ hne
    rw [hn]
    simp [baseFamilies, familyA]
  · apply mem_of_mem_baseFamilies U ord sourceOrder b c (ToUpper U b) _
      (ne_empty_of_length _ _ (Map_data_length _ _) hne)
    rw [hn]
    simp only [baseFamilies, familyA, List.mem_append, List.mem_cons]
    tauto
  · apply mem_of_mem_baseFamilies U ord m b c (toLeetspeak m b) _
      (ne_empty_of_length _ _ (toLeetspeak_data_length _ _) hne)
    rw [hn]
    simp only [baseFamilies, familyA, List.mem_append, List.mem_cons]
    tauto

/-- C4 at a concrete input: the base `root` with the context `admin`. -/
theorem base_coverage_witness :
    ToLower asciiTables "root" = "root" ∧ ' ' ∉ "root".data ∧ "root" ≠ "" ∧
    ("root" ∈ generateCombinations asciiTables (fun _ => sourceOrder) "root" ["admin"] ∧
      ToUpper asciiTables "root" ∈
        generateCombinations asciiTables (fun _ => sourceOrder) "root" ["admin"] ∧
      ∀ m : MapOrder, toLeetspeak m "root" ∈
        generateCombinations asciiTables (fun _ => sourceOrder) "root" ["admin"]) :=
  ⟨by decide, by decide, by decide,
    base_coverage asciiTables (fun _ => sourceOrder) "root" ["admin"]
      (by decide) (by decide) (by decide)⟩

/-- C4 fails as stated for the empty base: it is lowercased and has no space,
yet its upper-case form and its leetspeak form, both the empty string, are not
candidates. -/
theorem base_coverage_counterexample :
    ToLower asciiTables "" = "" ∧ ' ' ∉ "".data ∧
    ToUpper asciiTables "" ∉ generateCombinations asciiTables (fun _ => sourceOrder) "" [] ∧
    toLeetspeak sourceOrder "" ∉ generateCombinations asciiTables (fun _ => sourceOrder) "" [] := by
  have h1 : ToUpper asciiTables "" = "" := by decide
  have h2 : toLeetspeak sourceOrder "" = "" := by decide
  rw [h1, h2]
  refine ⟨by decide, by decide, ?_, ?_⟩ <;>
    · intro h
      exact ((mem_generateCombinations_iff _ _ _ _ _).1 h).2 rfl

/-- C5: a context word whose length is below 3 or above 20 contributes
nothing: with the word removed from the context the engine returns the same
list. -/
theorem short_or_long_word_skipped (U : UnicodeTables) (ord : Nat → MapOrder) (b : String)
    (pre post : List String) (w : String)
    (h : w.utf8ByteSize < 3 ∨ w.utf8ByteSize > 20) :
    generateCombinations U ord b (pre ++ [w] ++ post) =
      generateCombinations U ord b (pre ++ post) := by
  unfold generateCombinations
  rw [collectResults_eq, collectResults_eq, familyH_skip U ord _ w pre post h]

/-- C5 at concrete inputs: a word of length 2 and a word of length 21. -/
theorem short_or_long_word_skipped_witness :
    ("ab".utf8ByteSize < 3 ∨ "ab".utf8ByteSize > 20) ∧
    generateCombinations asciiTables (fun _ => sourceOrder) "root" (["admin"] ++ ["ab"] ++ ["user"]) =
      generateCombinations asciiTables (fun _ => sourceOrder) "root" (["admin"] ++ ["user"]) ∧
    ("abcdefghijklmnopqrstu".utf8ByteSize < 3 ∨ "abcdefghijklmnopqrstu".utf8ByteSize > 20) ∧
    generateCombinations asciiTables (fun _ => sourceOrder) "root"
        (["admin"] ++ ["abcdefghijklmnopqrstu"] ++ ["user"]) =
      generateCombinations asciiTables (fun _ => sourceOrder) "root" (["admin"] ++ ["user"]) :=
  ⟨by decide,
    short_or_long_word_skipped asciiTables (fun _ => sourceOrder) "root" ["admin"] ["user"] "ab"
      (by decide),
    by decide,
    short_or_long_word_skipped asciiTables (fun _ => sourceOrder) "root" ["admin"] ["user"]
      "abcdefghijklmnopqrstu" (by decide)⟩

/-- C6: for every normalized base `b`, every context list and every word `w`
of the list whose length is between 3 and 20, the candidates include each of
the 14 strings `w`, `lower(w)`, `upper(w)`, `title(w)`, `reverse(w)`,
`toLeetspeak(w)`, `b+w`, `w+b`, `b+"_"+w`, `w+"_"+b`, `b+"-"+w`, `w+"-"+b`,
`b+"."+w`, `w+"."+b`, and each of them followed by every entry of `suffixes`
and by every entry of `years`. -/
theorem context_word_full_set (U : UnicodeTables) (ord : Nat → MapOrder) (b : String)
    (c : List String) (w : String) (hl : ToLower U b = b) (hs : ' ' ∉ b.data)
    (hw : w ∈ c) (h3 : 3 ≤ w.utf8ByteSize) (h20 : w.utf8ByteSize ≤ 20) (m : MapOrder) :
    ∀ combo ∈ [w, ToLower U w, ToUpper U w, Title U w, reverse w, toLeetspeak m w,
        b ++ w, w ++ b, b ++ "_" ++ w, w ++ "_" ++ b, b ++ "-" ++ w, w ++ "-" ++ b,
        b ++ "." ++ w, w ++ "." ++ b],
      combo ∈ generateCombinations U ord b c ∧
      (∀ s ∈ suffixes, combo ++ s ∈ generateCombinations U ord b c) ∧
      (∀ y ∈ years, combo ++ y ∈ generateCombinations U ord b c) := by
  have hn := normalize_eq_self U b hl hs
  have hwne : w ≠ "" := ne_empty_of_utf8ByteSize w (by omega)
  intro combo hlist
  have hcombo : combo ∈ combos U m b w := by
    simp only [combos]
    exact hlist
  have hcne : combo ≠ "" := combos_ne_empty U m b w hwne combo hcombo
  have hblock : ∀ x ∈ comboBlock combo, x ∈ familyH U ord (normalize U b) c 1 := by
    rw [hn]
    exact comboBlock_subset_familyH U ord m b w c hw h3 h20 1 combo hcombo
  refine ⟨?_, fun s hsuf => ?_, fun y hy => ?_⟩
  · exact mem_of_mem_familyH U ord b c _ (hblock _ (by simp [comboBlock])) hcne
  · apply mem_of_mem_familyH U ord b c _ (hblock _ ?_)
    · simp [append_eq_empty_iff, hcne]
    · simp only [comboBlock, List.mem_append, List.mem_map]
      exact Or.inl (Or.inr ⟨s, hsuf, rfl⟩)
  · apply mem_of_mem_familyH U ord b c _ (hblock _ ?_)
    · simp [append_eq_empty_iff, hcne]
    · simp only [comboBlock, List.mem_append, List.mem_map]
      exact Or.inr ⟨y, hy, rfl⟩

/-- C6 at concrete inputs: context words of length exactly 3 and exactly 20,
with the 14 strings of each written out. -/
theorem context_word_full_set_witness :
    ToLower asciiTables "root" = "root" ∧ ' ' ∉ "root".data ∧
    "abc".utf8ByteSize = 3 ∧ "abcdefghijklmnopqrst".utf8ByteSize = 20 ∧
    ["abc", ToLower asciiTables "abc", ToUpper asciiTables "abc", Title asciiTables "abc",
        reverse "abc", toLeetspeak sourceOrder "abc", "root" ++ "abc", "abc" ++ "root",
        "root" ++ "_" ++ "abc", "abc" ++ "_" ++ "root", "root" ++ "-" ++ "abc",
        "abc" ++ "-" ++ "root", "root" ++ "." ++ "abc", "abc" ++ "." ++ "root"] =
      ["abc", "abc", "ABC", "Abc", "cba", "@bc", "rootabc", "abcroot", "root_abc",
        "abc_root", "root-abc", "abc-root", "root.abc", "abc.root"] ∧
    (∀ combo ∈ ["abc", ToLower asciiTables "abc", ToUpper asciiTables "abc",
        Title asciiTables "abc", reverse "abc", toLeetspeak sourceOrder "abc",
        "root" ++ "abc", "abc" ++ "root", "root" ++ "_" ++ "abc", "abc" ++ "_" ++ "root",
        "root" ++ "-" ++ "abc", "abc" ++ "-" ++ "root", "root" ++ "." ++ "abc",
        "abc" ++ "." ++ "root"],
      combo ∈ generateCombinations asciiTables (fun _ => reversedOrder) "root"
        ["abc", "abcdefghijklmnopqrst"] ∧
      (∀ s ∈ suffixes, combo ++ s ∈ generateCombinations asciiTables
        (fun _ => reversedOrder) "root" ["abc", "abcdefghijklmnopqrst"]) ∧
      (∀ y ∈ years, combo ++ y ∈ generateCombinations asciiTables
        (fun _ => reversedOrder) "root" ["abc", "abcdefghijklmnopqrst"])) ∧
    ["abcdefghijklmnopqrst", ToLower asciiTables "abcdefghijklmnopqrst",
        ToUpper asciiTables "abcdefghijklmnopqrst", Title asciiTables "abcdefghijklmnopqrst",
        reverse "abcdefghijklmnopqrst", toLeetspeak sourceOrder "abcdefghijklmnopqrst",
        "root" ++ "abcdefghijklmnopqrst", "abcdefghijklmnopqrst" ++ "root",
        "root" ++ "_" ++ "abcdefghijklmnopqrst", "abcdefghijklmnopqrst" ++ "_" ++ "root",
        "root" ++ "-" ++ "abcdefghijklmnopqrst", "abcdefghijklmnopqrst" ++ "-" ++ "root",
        "root" ++ "." ++ "abcdefghijklmnopqrst", "abcdefghijklmnopqrst" ++ "." ++ "root"] =
      ["abcdefghijklmnopqrst", "abcdefghijklmnopqrst", "ABCDEFGHIJKLMNOPQRST",
        "Abcdefghijklmnopqrst", "tsrqponmlkjihgfedcba", "@bcd3f9h1jk1mn0pqr$7",
        "rootabcdefghijklmnopqrst", "abcdefghijklmnopqrstroot", "root_abcdefghijklmnopqrst",
        "abcdefghijklmnopqrst_root", "root-abcdefghijklmnopqrst", "abcdefghijklmnopqrst-root",
        "root.abcdefghijklmnopqrst", "abcdefghijklmnopqrst.root"] ∧
    (∀ combo ∈ ["abcdefghijklmnopqrst", ToLower asciiTables "abcdefghijklmnopqrst",
        ToUpper asciiTables "abcdefghijklmnopqrst", Title asciiTables "abcdefghijklmnopqrst",
        reverse "abcdefghijklmnopqrst", toLeetspeak sourceOrder "abcdefghijklmnopqrst",
        "root" ++ "abcdefghijklmnopqrst", "abcdefghijklmnopqrst" ++ "root",
        "root" ++ "_" ++ "abcdefghijklmnopqrst", "abcdefghijklmnopqrst" ++ "_" ++ "root",
        "root" ++ "-" ++ "abcdefghijklmnopqrst", "abcdefghijklmnopqrst" ++ "-" ++ "root",
        "root" ++ "." ++ "abcdefghijklmnopqrst", "abcdefghijklmnopqrst" ++ "." ++ "root"],
      combo ∈ generateCombinations asciiTables (fun _ => reversedOrder) "root"
        ["abc", "abcdefghijklmnopqrst"] ∧
      (∀ s ∈ suffixes, combo ++ s ∈ generateCombinations asciiTables
        (fun _ => reversedOrder) "root" ["abc", "abcdefghijklmnopqrst"]) ∧
      (∀ y ∈ years, combo ++ y ∈ generateCombinations asciiTables
        (fun _ => reversedOrder) "root" ["abc", "abcdefghijklmnopqrst"])) :=
  ⟨by decide, by decide, by decide, by decide, by decide,
    context_word_full_set asciiTables (fun _ => reversedOrder) "root"
      ["abc", "abcdefghijklmnopqrst"] "abc" (by decide) (by decide) (by decide)
      (by decide) (by decide) sourceOrder,
    by decide,
    context_word_full_set asciiTables (fun _ => reversedOrder) "root"
      ["abc", "abcdefghijklmnopqrst"] "abcdefghijklmnopqrst" (by decide) (by decide)
      (by decide) (by decide) (by decide) sourceOrder⟩

/-! ## The families that need no context -/

/-- Every catalog entry is a non-empty string. -/
theorem catalogs_ne_empty :
    (∀ e ∈ wordEndings, e ≠ "") ∧ (∀ t ∈ ctfTerms, t ≠ "") ∧ (∀ y ∈ years, y ≠ "") ∧
    (∀ k ∈ keyboards, k ≠ "") ∧ (∀ p ∈ prefixes, p ≠ "") := by
  decide

/-- The decimal form of a number below 100 has one digit below 10 and two
digits from 10 on. -/
theorem sprintfD_length :
    ∀ i < 100, (i < 10 → (sprintfD i).length = 1) ∧ (10 ≤ i → (sprintfD i).length = 2) := by
  decide

/-- The number of characters of a string is the length of its character list. -/
theorem length_eq_data_length (s : String) : s.length = s.data.length := by
  cases s
  rfl

/-- The decimal form of a number below 100 is not the empty string. -/
theorem sprintfD_ne_empty (i : Nat) (hi : i < 100) : sprintfD i ≠ "" := by
  intro h
  have h1 := sprintfD_length i hi
  rw [h] at h1
  rcases Nat.lt_or_ge i 10 with h2 | h2
  · exact absurd (h1.1 h2) (by decide)
  · exact absurd (h1.2 h2) (by decide)

/-- Each pass `i` of the number loop appends the base followed by `i`, and for
`i` below 10 also the base followed by `0` and `i`. -/
theorem mem_familyF (n : String) (i : Nat) (hi : i < 100) :
    n ++ sprintfD i ∈ familyF n ∧ (i < 10 → n ++ ("0" ++ sprintfD i) ∈ familyF n) := by
  unfold familyF
  simp only [List.mem_flatMap, List.mem_range]
  refine ⟨⟨i, hi, ?_⟩, fun h10 => ⟨i, hi, ?_⟩⟩
  · simp [numberBlock]
  · simp [numberBlock, h10]

/-- C7: with an empty context the engine still yields every family that needs
no context. For every base, normalized to `n`, the list is non-empty and holds
`n` with each of the 27 word endings, the four forms for each of the 21 CTF
terms, the two forms for each of the 9 years and each of the 6 keyboard
patterns, `n` followed by every number from 0 to 99, the three forms for each
of the 13 prefixes, and every non-empty base-only variant. -/
theorem empty_context_families (U : UnicodeTables) (ord : Nat → MapOrder) (b n : String)
    (hn : normalize U b = n) :
    generateCombinations U ord b [] ≠ [] ∧
    (wordEndings.length = 27 ∧ ∀ e ∈ wordEndings, n ++ e ∈ generateCombinations U ord b []) ∧
    (ctfTerms.length = 21 ∧ ∀ t ∈ ctfTerms,
      n ++ t ∈ generateCombinations U ord b [] ∧ t ++ n ∈ generateCombinations U ord b [] ∧
      n ++ "_" ++ t ∈ generateCombinations U ord b [] ∧
      t ++ "_" ++ n ∈ generateCombinations U ord b []) ∧
    (years.length = 9 ∧ ∀ y ∈ years,
      n ++ y ∈ generateCombinations U ord b [] ∧ y ++ n ∈ generateCombinations U ord b []) ∧
    (keyboards.length = 6 ∧ ∀ k ∈ keyboards,
      n ++ k ∈ generateCombinations U ord b [] ∧ k ++ n ∈ generateCombinations U ord b []) ∧
    (∀ i, i ≤ 99 → n ++ sprintfD i ∈ generateCombinations U ord b []) ∧
    (prefixes.length = 13 ∧ ∀ p ∈ prefixes,
      p ++ n ∈ generateCombinations U ord b [] ∧ p ++ "_" ++ n ∈ generateCombinations U ord b [] ∧
      p ++ "-" ++ n ∈ generateCombinations U ord b []) ∧
    (∀ m : MapOrder, ∀ x ∈ [n, ToUpper U n, Title U n, reverse n, toLeetspeak m n],
      x ≠ "" → x ∈ generateCombinations U ord b []) := by
  subst hn
  obtain ⟨hE, hT, hY, hK, hP⟩ := catalogs_ne_empty
  have key : ∀ (m : MapOrder) (x : String), x ∈ baseFamilies U m (normalize U b) → x ≠ "" →
      x ∈ generateCombinations U ord b [] :=
    fun m x hx hne => mem_of_mem_baseFamilies U ord m b [] x hx hne
  have hB : ∀ e ∈ wordEndings, normalize U b ++ e ∈ generateCombinations U ord b [] := by
    intro e he
    apply key sourceOrder _ _ (by simp [append_eq_empty_iff, hE e he])
    simp only [baseFamilies, familyB, List.mem_append, List.mem_map]
    exact Or.inl (Or.inl (Or.inl (Or.inl (Or.inl (Or.inr ⟨e, he, rfl⟩)))))
  refine ⟨?_, ⟨rfl, hB⟩, ⟨rfl, fun t ht => ?_⟩, ⟨rfl, fun y hy => ?_⟩,
    ⟨rfl, fun k hk => ?_⟩, fun i hi => ?_, ⟨rfl, fun p hp => ?_⟩, fun m x hx hne => ?_⟩
  · exact List.ne_nil_of_mem (hB "s" (by decide))
  · have hmem : ∀ x ∈ [normalize U b ++ t, t ++ normalize U b, normalize U b ++ "_" ++ t,
        t ++ "_" ++ normalize U b], x ∈ baseFamilies U sourceOrder (normalize U b) := by
      intro x hx
      simp only [baseFamilies, familyC, List.mem_append, List.mem_flatMap]
      exact Or.inl (Or.inl (Or.inl (Or.inl (Or.inr ⟨t, ht, hx⟩))))
    refine ⟨key _ _ (hmem _ (by simp)) ?_, key _ _ (hmem _ (by simp)) ?_,
      key _ _ (hmem _ (by simp)) ?_, key _ _ (hmem _ (by simp)) ?_⟩ <;>
      simp [append_eq_empty_iff, hT t ht]
  · have hmem : ∀ x ∈ [normalize U b ++ y, y ++ normalize U b],
        x ∈ baseFamilies U sourceOrder (normalize U b) := by
      intro x hx
      simp only [baseFamilies, familyD, List.mem_append, List.mem_flatMap]
      exact Or.inl (Or.inl (Or.inl (Or.inr ⟨y, hy, hx⟩)))
    refine ⟨key _ _ (hmem _ (by simp)) ?_, key _ _ (hmem _ (by simp)) ?_⟩ <;>
      simp [append_eq_empty_iff, hY y hy]
  · have hmem : ∀ x ∈ [normalize U b ++ k, k ++ normalize U b],
        x ∈ baseFamilies U sourceOrder (normalize U b) := by
      intro x hx
      simp only [baseFamilies, familyE, List.mem_append, List.mem_flatMap]
      exact Or.inl (Or.inl (Or.inr ⟨k, hk, hx⟩))
    refine ⟨key _ _ (hmem _ (by simp)) ?_, key _ _ (hmem _ (by simp)) ?_⟩ <;>
      simp [append_eq_empty_iff, hK k hk]
  · apply key sourceOrder _ _ (by simp [append_eq_empty_iff, sprintfD_ne_empty i (by omega)])
    simp only [baseFamilies, List.mem_append]
    exact Or.inl (Or.inr (mem_familyF _ i (by omega)).1)
  · have hmem : ∀ x ∈ [p ++ normalize U b, p ++ "_" ++ normalize U b,
        p ++ "-" ++ normalize U b], x ∈ baseFamilies U sourceOrder (normalize U b) := by
      intro x hx
      simp only [baseFamilies, familyG, List.mem_append, List.mem_flatMap]
      exact Or.inr ⟨p, hp, hx⟩
    refine ⟨key _ _ (hmem _ (by simp)) ?_, key _ _ (hmem _ (by simp)) ?_,
      key _ _ (hmem _ (by simp)) ?_⟩ <;>
      simp [append_eq_empty_iff, hP p hp]
  · apply key m x _ hne
    simp only [baseFamilies, List.mem_append]
    exact Or.inl (Or.inl (Or.inl (Or.inl (Or.inl (Or.inl hx)))))

/-- C7 at a concrete input: the base `test` with an empty context. -/
theorem empty_context_families_witness :
    normalize asciiTables "test" = "test" ∧
    generateCombinations asciiTables (fun _ => sourceOrder) "test" [] ≠ [] ∧
    (∀ x ∈ ["test", "TEST", "Test", "tset", "73$7"],
      x ∈ generateCombinations asciiTables (fun _ => sourceOrder) "test" []) ∧
    "testing" ∈ generateCombinations asciiTables (fun _ => sourceOrder) "test" [] ∧
    "flag_test" ∈ generateCombinations asciiTables (fun _ => sourceOrder) "test" [] ∧
    "1337test" ∈ generateCombinations asciiTables (fun _ => sourceOrder) "test" [] ∧
    "testqwerty" ∈ generateCombinations asciiTables (fun _ => sourceOrder) "test" [] ∧
    "test99" ∈ generateCombinations asciiTables (fun _ => sourceOrder) "test" [] ∧
    "backup-test" ∈ generateCombinations asciiTables (fun _ => sourceOrder) "test" [] :=
  have h := empty_context_families asciiTables (fun _ => sourceOrder) "test" "test" (by decide)
  ⟨by decide, h.1,
    fun x hx => h.2.2.2.2.2.2.2 sourceOrder x hx (by
      intro hemp
      subst hemp
      revert hx
      decide),
    h.2.1.2 "ing" (by decide), (h.2.2.1.2 "flag" (by decide)).2.2.2,
    (h.2.2.2.1.2 "1337" (by decide)).2, (h.2.2.2.2.1.2 "qwerty" (by decide)).1,
    h.2.2.2.2.2.1 99 (by decide), (h.2.2.2.2.2.2.1.2 "backup" (by decide)).2.2⟩

/-! ## Number patterns -/

/-- C8: for every base, normalized to `n`, and every context, the candidates
hold `n` followed by the decimal form of every `i` from 0 to 99, and for `i`
from 0 to 9 also `n` followed by the two-character form `0i`. -/
theorem numeric_suffixes (U : UnicodeTables) (ord : Nat → MapOrder) (b : String)
    (c : List String) (n : String) (i : Nat) (hn : normalize U b = n) (hi : i ≤ 99) :
    n ++ sprintfD i ∈ generateCombinations U ord b c ∧
    (i < 10 → n ++ ("0" ++ sprintfD i) ∈ generateCombinations U ord b c ∧
      ("0" ++ sprintfD i).length = 2) ∧
    (10 ≤ i → (sprintfD i).length = 2) := by
  subst hn
  have hlt : i < 100 := by omega
  have hne := sprintfD_ne_empty i hlt
  have hlen := sprintfD_length i hlt
  refine ⟨?_, fun h10 => ⟨?_, ?_⟩, hlen.2⟩
  · apply mem_of_mem_baseFamilies U ord sourceOrder b c _ _
      (by simp [append_eq_empty_iff, hne])
    simp only [baseFamilies, List.mem_append]
    exact Or.inl (Or.inr (mem_familyF _ i hlt).1)
  · apply mem_of_mem_baseFamilies U ord sourceOrder b c _ _
      (by simp [append_eq_empty_iff, hne])
    simp only [baseFamilies, List.mem_append]
    exact Or.inl (Or.inr ((mem_familyF _ i hlt).2 h10))
  · rw [String.length_append, hlen.1 h10]
    rfl

/-- C8 at concrete inputs: the candidates for the base `x` with an empty
context hold `x05`, `x5` and `x42`. -/
theorem numeric_suffixes_witness :
    normalize asciiTables "x" = "x" ∧
    "x5" ∈ generateCombinations asciiTables (fun _ => sourceOrder) "x" [] ∧
    "x05" ∈ generateCombinations asciiTables (fun _ => sourceOrder) "x" [] ∧
    "x42" ∈ generateCombinations asciiTables (fun _ => sourceOrder) "x" [] :=
  ⟨by decide,
    (numeric_suffixes asciiTables (fun _ => sourceOrder) "x" [] "x" 5 (by decide) (by decide)).1,
    ((numeric_suffixes asciiTables (fun _ => sourceOrder) "x" [] "x" 5 (by decide)
      (by decide)).2.1 (by decide)).1,
    (numeric_suffixes asciiTables (fun _ => sourceOrder) "x" [] "x" 42 (by decide) (by decide)).1⟩

/-- The count of `0` adds up over a concatenation. -/
theorem zeros_append (s t : String) : zeros (s ++ t) = zeros s + zeros t := by
  simp [zeros, List.count_append]

/-- Word endings, CTF terms and prefixes hold no `0`; a year has four
characters and a keyboard pattern four or more. -/
theorem catalogs_shape :
    (∀ e ∈ wordEndings, zeros e = 0) ∧ (∀ t ∈ ctfTerms, zeros t = 0) ∧
    (∀ y ∈ years, y.length = 4) ∧ (∀ k ∈ keyboards, 4 ≤ k.length) ∧
    (∀ p ∈ prefixes, zeros p = 0) := by
  decide

/-- A string of families A to G that is three characters longer than the base
has as many `0` as the base. -/
theorem baseFamilies_zeros (U : UnicodeTables) (m : MapOrder) (n e : String)
    (he : e ∈ baseFamilies U m n) (hlen : e.length = n.length + 3) :
    zeros e = zeros n := by
  obtain ⟨zE, zT, lY, lK, zP⟩ := catalogs_shape
  have zu : zeros "_" = 0 := by decide
  have zd : zeros "-" = 0 := by decide
  have lu : "_".length = 1 := by decide
  have l0 : "0".length = 1 := by decide
  have lA1 : (ToUpper U n).length = n.length := by
    rw [length_eq_data_length, length_eq_data_length]; exact Map_data_length _ _
  have lA2 : (Title U n).length = n.length := by
    rw [length_eq_data_length, length_eq_data_length]; exact Title_data_length _ _
  have lA3 : (reverse n).length = n.length := by
    rw [length_eq_data_length, length_eq_data_length]; exact reverse_data_length _
  have lA4 : (toLeetspeak m n).length = n.length := by
    rw [length_eq_data_length, length_eq_data_length]; exact toLeetspeak_data_length _ _
  simp only [baseFamilies, familyA, familyB, familyC, familyD, familyE, familyF, familyG,
    List.mem_append, List.mem_cons, List.mem_flatMap, List.mem_map, List.not_mem_nil,
    or_false, List.mem_range] at he
  rcases he with ((((((hA | hB) | hC) | hD) | hE) | hF) | hG)
  · rcases hA with rfl | rfl | rfl | rfl | rfl <;> omega
  · obtain ⟨a, ha, rfl⟩ := hB
    rw [zeros_append, zE a ha]
    rfl
  · obtain ⟨t, ht, h⟩ := hC
    rcases h with rfl | rfl | rfl | rfl <;> simp only [zeros_append, zT t ht, zu] <;> omega
  · obtain ⟨y, hy, h⟩ := hD
    have := lY y hy
    rcases h with rfl | rfl <;> rw [String.length_append] at hlen <;> omega
  · obtain ⟨k, hk, h⟩ := hE
    have := lK k hk
    rcases h with rfl | rfl <;> rw [String.length_append] at hlen <;> omega
  · obtain ⟨j, hj, h⟩ := hF
    have hl := sprintfD_length j hj
    unfold numberBlock at h
    by_cases h10 : j < 10
    · have := hl.1 h10
      rw [if_pos h10] at h
      simp only [List.mem_append, List.mem_cons, List.mem_singleton, List.not_mem_nil,
        or_false] at h
      rcases h with rfl | rfl <;> simp only [String.length_append] at hlen <;> omega
    · have := hl.2 (by omega)
      rw [if_neg h10] at h
      simp only [List.mem_append, List.mem_cons, List.mem_singleton, List.not_mem_nil,
        or_false, false_or] at h
      subst h
      simp only [String.length_append] at hlen
      omega
  · obtain ⟨p, hp, h⟩ := hG
    rcases h with rfl | rfl | rfl <;> simp only [zeros_append, zP p hp, zu, zd] <;> omega

/-- C9: two-digit values get no zero-padded form. For every base, normalized
to `n`, and every `i` from 10 to 99, the candidates for an empty context do
not hold `n` followed by `0` and the decimal form of `i`. -/
theorem no_padding_for_two_digits (U : UnicodeTables) (ord : Nat → MapOrder) (b n : String)
    (i : Nat) (hn : normalize U b = n) (h10 : 10 ≤ i) (h99 : i ≤ 99) :
    n ++ "0" ++ sprintfD i ∉ generateCombinations U ord b [] := by
  subst hn
  intro h
  rw [mem_generateCombinations_iff, collectResults_eq] at h
  have hmem : normalize U b ++ "0" ++ sprintfD i ∈ baseFamilies U (ord 0) (normalize U b) := by
    simpa [familyH] using h.1
  have hl := (sprintfD_length i (by omega)).2 h10
  have hz := baseFamilies_zeros U (ord 0) _ _ hmem (by
    rw [String.length_append, String.length_append, hl]
    rfl)
  rw [zeros_append, zeros_append] at hz
  have z0 : zeros "0" = 1 := by decide
  omega

/-- C9 at a concrete input: the candidates for the base `x` with an empty
context do not hold `x042`. -/
theorem no_padding_for_two_digits_witness :
    normalize asciiTables "x" = "x" ∧
    "x042" ∉ generateCombinations asciiTables (fun _ => sourceOrder) "x" [] :=
  ⟨by decide,
    no_padding_for_two_digits asciiTables (fun _ => sourceOrder) "x" "x" 42 (by decide)
      (by decide) (by decide)⟩

/-! ## Determinism -/

/-- Family H does not depend on the enumerations used by `toLeetspeak`. -/
theorem familyH_order (U : UnicodeTables) (ord ord2 : Nat → MapOrder) (n : String)
    (c : List String) :
    ∀ (calls calls2 : Nat), familyH U ord n c calls = familyH U ord2 n c calls2 := by
  induction c with
  | nil => intro calls calls2; rfl
  | cons word rest ih =>
    intro calls calls2
    unfold familyH
    split
    · exact ih calls calls2
    · rw [combos_order U (ord calls) (ord2 calls2), ih (calls + 1) (calls2 + 1)]

/-- The slice `results` does not depend on the enumerations used by `toLeetspeak`. -/
theorem collectResults_order (U : UnicodeTables) (ord ord2 : Nat → MapOrder) (b : String)
    (c : List String) : collectResults U ord b c = collectResults U ord2 b c := by
  rw [collectResults_eq, collectResults_eq, familyH_order U ord ord2 _ c 1 1]
  unfold baseFamilies
  rw [familyA_order U (ord 0) (ord2 0)]

/-- C11: determinism. For every base and context, two runs of
`generateCombinations` return the same sequence, the same elements in the
same order, even when they enumerate the replacement map of `toLeetspeak` in
different orders at every call. -/
theorem generateCombinations_deterministic (U : UnicodeTables) (ord ord2 : Nat → MapOrder)
    (b : String) (c : List String) :
    generateCombinations U ord b c = generateCombinations U ord2 b c := by
  unfold generateCombinations
  rw [collectResults_order U ord ord2]

/-! ## Leetspeak keeps the length and is idempotent -/

/-- The table of the spec maps every character to a character it leaves alone. -/
theorem leetChar_idem (c : Char) : leetChar (leetChar c) = leetChar c := by
  have h : ∀ d : Char, d ∈ ['@', '3', '1', '0', '$', '7', '9'] → leetChar d = d := by decide
  by_cases hc : leetChar c = c
  · rw [hc, hc]
  · apply h
    unfold leetChar at hc ⊢
    split_ifs at hc ⊢ <;> first | exact absurd rfl hc | simp

/-- C19: for every string, `toLeetspeak` keeps the number of characters and
is idempotent, whatever the enumeration orders of the two calls, because no
replacement symbol is itself a key of the table. -/
theorem toLeetspeak_idempotent (m m2 : MapOrder) (s : String) :
    (toLeetspeak m s).length = s.length ∧
    toLeetspeak m2 (toLeetspeak m s) = toLeetspeak m s ∧
    ∀ p ∈ replacements, ∀ q ∈ replacements, q.1 ≠ p.2 := by
  refine ⟨?_, ?_, by decide⟩
  · rw [length_eq_data_length, length_eq_data_length]
    exact toLeetspeak_data_length m s
  · rw [toLeetspeak_eq_variant, toLeetspeak_eq_variant]
    unfold leetspeakVariant
    rw [String.ext_iff]
    simp only [List.map_map]
    apply List.map_congr_left
    intro c _
    exact leetChar_idem c

/-! ## Reversal works on whole characters -/

/-- C15: for every string, `reverse` returns the code points in reverse order,
each code point keeping the order of its own bytes, and reversing twice gives
back the input. On the two code points of `hé` the result differs from the
reversed bytes. -/
theorem reverse_whole_characters (s : String) :
    (reverse s).data = s.data.reverse ∧
    reverse (reverse s) = s ∧
    (reverse s).data.flatMap String.utf8EncodeChar =
      (s.data.map String.utf8EncodeChar).reverse.flatten ∧
    (reverse "hé").data.flatMap String.utf8EncodeChar ≠
      ("hé".data.flatMap String.utf8EncodeChar).reverse := by
  refine ⟨?_, ?_, ?_, by decide⟩
  · rw [reverse_eq]
  · rw [reverse_eq, reverse_eq, String.ext_iff]
    exact List.reverse_reverse _
  · rw [reverse_eq]
    simp only [List.flatMap, List.map_reverse]

/-! ## The candidate list is the rule sequence with first occurrences kept -/

/-- Keeping first occurrences commutes with filtering. -/
theorem keepFirst_filter (q : String → Bool) (l : List String) :
    keepFirst (l.filter q) = (keepFirst l).filter q := by
  induction l with
  | nil => rfl
  | cons x xs ih =>
    by_cases hq : q x = true
    · rw [List.filter_cons_of_pos hq, keepFirst, keepFirst, List.filter_cons_of_pos hq, ih,
        List.filter_filter, List.filter_filter]
      congr 1
      apply List.filter_congr
      intro a _
      exact Bool.and_comm _ _
    · rw [List.filter_cons_of_neg hq, keepFirst, ih, List.filter_cons_of_neg hq,
        List.filter_filter]
      apply List.filter_congr
      intro a _
      by_cases ha : a = x
      · subst ha
        simp [hq]
      · simp [ha]

/-- The loop "Remove duplicates" returns `unique` followed by the first
occurrences of the words that are non-empty and not in `unique`. -/
theorem removeDuplicates_eq_keepFirst (l : List String) :
    ∀ (seen : String → Bool) (unique : List String),
      (∀ w, seen w = true ↔ w ∈ unique) →
      removeDuplicates l seen unique =
        unique ++ keepFirst (l.filter (fun w => decide (w ≠ "") && decide (w ∉ unique))) := by
  induction l with
  | nil => intro seen unique _; simp [removeDuplicates, keepFirst]
  | cons word rest ih =>
    intro seen unique hs
    unfold removeDuplicates
    by_cases h : (!seen word && word != "") = true
    · rw [if_pos h]
      have h1 : seen word = false := by
        cases hsw : seen word <;> simp_all
      have h2 : word ≠ "" := by
        intro hw
        simp [hw] at h
      have hnot : word ∉ unique := by
        intro hm
        rw [(hs word).2 hm] at h1
        exact Bool.noConfusion h1
      have hs2 : ∀ w, (fun k => if k = word then true else seen k) w = true ↔
          w ∈ unique ++ [word] := by
        intro w
        by_cases hw : w = word
        · simp [hw]
        · simp [hw, hs w]
      have e : rest.filter (fun w => decide (w ≠ "") && decide (w ∉ unique ++ [word])) =
          rest.filter (fun a => decide (a ≠ word) && (decide (a ≠ "") && decide (a ∉ unique))) := by
        apply List.filter_congr
        intro a _
        by_cases ha : a = word
        · subst ha
          simp
        · simp [ha, Bool.and_comm]
      rw [ih _ _ hs2, List.filter_cons_of_pos (by simp [h2, hnot]), keepFirst,
        ← keepFirst_filter, List.filter_filter, List.append_assoc, e]
      rfl
    · rw [if_neg h, ih seen unique hs, List.filter_cons_of_neg]
      intro hp
      apply h
      simp only [Bool.and_eq_true, decide_eq_true_eq] at hp
      have : seen word = false := by
        cases hsw : seen word
        · rfl
        · exact absurd ((hs word).1 hsw) hp.2
      simp [this, hp.1]

/-- C16: for every base and context the output is exactly the unioned rule
sequence, families A to H in emission order, with the empty strings removed
and every string after its first occurrence removed; a string is in the
output exactly when it is non-empty and emitted by some rule. -/
theorem generateCombinations_eq_first_occurrences (U : UnicodeTables) (ord : Nat → MapOrder)
    (b : String) (c : List String) :
    collectResults U ord b c =
      familyA U (ord 0) (normalize U b) ++ familyB (normalize U b) ++ familyC (normalize U b) ++
        familyD (normalize U b) ++ familyE (normalize U b) ++ familyF (normalize U b) ++
        familyG (normalize U b) ++ familyH U ord (normalize U b) c 1 ∧
    generateCombinations U ord b c =
      keepFirst ((collectResults U ord b c).filter (fun x => decide (x ≠ ""))) ∧
    ∀ x, x ∈ generateCombinations U ord b c ↔ x ≠ "" ∧ x ∈ collectResults U ord b c := by
  refine ⟨?_, ?_, fun x => ?_⟩
  · rw [collectResults_eq]
    rfl
  · unfold generateCombinations
    rw [removeDuplicates_eq_keepFirst _ _ [] (by simp)]
    simp
  · rw [mem_generateCombinations_iff]
    exact And.comm

/-! ## The context filter -/

/-- Facts about the ASCII branch of `unicode.ToLower`, checked on each of the
128 code points: the result is ASCII, is no capital letter, is in the class
of the pattern exactly when the argument is, and is left alone by a second
call. -/
theorem lower_ascii_facts : ∀ n < 128,
    (unicodeToLower asciiTables (Char.ofNat n)).toNat ≤ 127 ∧
    ¬ ('A'.toNat ≤ (unicodeToLower asciiTables (Char.ofNat n)).toNat ∧
       (unicodeToLower asciiTables (Char.ofNat n)).toNat ≤ 'Z'.toNat) ∧
    isAlnum (unicodeToLower asciiTables (Char.ofNat n)) = isAlnum (Char.ofNat n) ∧
    unicodeToLower asciiTables (unicodeToLower asciiTables (Char.ofNat n)) =
      unicodeToLower asciiTables (Char.ofNat n) := by
  decide

/-- An ASCII code point is encoded in one byte. -/
theorem utf8Size_ascii : ∀ n < 128, (Char.ofNat n).utf8Size = 1 := by
  decide

/-- On an ASCII code point `unicode.ToLower` does not consult the tables. -/
theorem unicodeToLower_ascii (U : UnicodeTables) (r : Char) (h : r.toNat ≤ 127) :
    unicodeToLower U r = unicodeToLower asciiTables r := by
  simp [unicodeToLower, MaxASCII, h]

/-- Above ASCII `unicode.ToLower` is the table. -/
theorem unicodeToLower_above (U : UnicodeTables) (r : Char) (h : ¬ r.toNat ≤ 127) :
    unicodeToLower U r = U.lower r := by
  simp [unicodeToLower, MaxASCII, h]

/-- A character of the class of the pattern is ASCII. -/
theorem isAlnum_ascii (r : Char) (h : isAlnum r = true) : r.toNat ≤ 127 := by
  have hz : 'z'.toNat = 122 := rfl
  have hZ : 'Z'.toNat = 90 := rfl
  have h9 : '9'.toNat = 57 := rfl
  simp only [isAlnum, Bool.or_eq_true, Bool.and_eq_true, decide_eq_true_eq,
    Bool.decide_or, Bool.decide_and] at h
  omega

/-- A string matches the pattern when it is non-empty and every character is
in the class. -/
theorem validMatchString_iff (w : String) :
    validMatchString w = true ↔ w ≠ "" ∧ ∀ ch ∈ w.data, isAlnum ch = true := by
  unfold validMatchString
  simp only [ne_eq, eq_empty_iff]
  cases hw : w.data <;> simp

/-- The byte count of a string of ASCII characters is its number of characters. -/
theorem utf8ByteSize_go_ascii (l : List Char) (h : ∀ ch ∈ l, ch.toNat ≤ 127) :
    String.utf8ByteSize.go l = l.length := by
  induction l with
  | nil => rfl
  | cons c cs ih =>
    have hc : c.utf8Size = 1 := by
      have := utf8Size_ascii c.toNat (by
        have := h c (List.mem_cons_self _ _)
        omega)
      rwa [Char.ofNat_toNat] at this
    rw [String.utf8ByteSize.go, ih (fun ch hch => h ch (List.mem_cons_of_mem _ hch)), hc,
      List.length_cons]

/-- For a string that matches the pattern `len` counts the characters. -/
theorem utf8ByteSize_of_valid (w : String) (h : validMatchString w = true) :
    w.utf8ByteSize = w.length := by
  have hall := ((validMatchString_iff w).1 h).2
  rw [length_eq_data_length]
  cases w with
  | mk l => exact utf8ByteSize_go_ascii l (fun ch hch => isAlnum_ascii ch (hall ch hch))

/-- The loop of `filterWords` is the loop "Remove duplicates" run on the
lowercased fragments that match the pattern and are longer than 2. -/
theorem filterWords_loop_eq (U : UnicodeTables) (raw : List String) :
    ∀ (seen : String → Bool) (result : List String),
      filterWords.loop U raw seen result =
        removeDuplicates ((raw.map (ToLower U)).filter
          (fun w => validMatchString w && decide (w.utf8ByteSize > 2))) seen result := by
  induction raw with
  | nil => intro seen result; rfl
  | cons word rest ih =>
    intro seen result
    unfold filterWords.loop
    simp only [List.map_cons]
    by_cases hg : (validMatchString (ToLower U word) &&
        decide ((ToLower U word).utf8ByteSize > 2)) = true
    · simp only [List.filter_cons, hg, if_true]
      rw [removeDuplicates]
      have hv : validMatchString (ToLower U word) = true := by
        simp only [Bool.and_eq_true] at hg
        exact hg.1
      have hne : ToLower U word ≠ "" := ((validMatchString_iff _).1 hv).1
      simp only [Bool.and_eq_true, decide_eq_true_eq] at hg
      by_cases hs : seen (ToLower U word) = true
      · rw [if_neg (by simp [hs]), if_neg (by simp [hs])]
        exact ih seen result
      · have hs' : seen (ToLower U word) = false := by simpa using hs
        rw [if_pos (by simp [hs', hg.1, hg.2]), if_pos (by simp [hs', hne])]
        exact ih _ _
    · simp only [List.filter_cons, hg, if_false]
      rw [if_neg]
      · exact ih seen result
      · intro hcond
        apply hg
        simp only [Bool.and_eq_true, decide_eq_true_eq, Bool.not_eq_true'] at hcond ⊢
        exact ⟨hcond.1.1, hcond.2⟩

/-- A word is in the result of `filterWords` exactly when it is the lowercase
form of a fragment, matches the pattern and is longer than 2. -/
theorem mem_filterWords_iff (U : UnicodeTables) (raw : List String) (w : String) :
    w ∈ filterWords U raw ↔
      (∃ word ∈ raw, ToLower U word = w) ∧ validMatchString w = true ∧ w.utf8ByteSize > 2 := by
  unfold filterWords
  rw [filterWords_loop_eq,
    (removeDuplicates_spec _ (fun _ => false) [] (by simp) List.nodup_nil).2 w]
  simp only [List.not_mem_nil, false_or, List.mem_filter, List.mem_map, Bool.and_eq_true,
    decide_eq_true_eq]
  constructor
  · rintro ⟨⟨hw, hv, hl⟩, _⟩
    exact ⟨hw, hv, hl⟩
  · rintro ⟨hw, hv, hl⟩
    exact ⟨⟨hw, hv, hl⟩, ((validMatchString_iff w).1 hv).1⟩

/-- C12: for every list of raw fragments, every word of `filterWords(raw)`
consists only of lowercase ASCII letters and digits, is longer than 2 (in
bytes and in characters), and occurs exactly once in the result. The case
tables are assumed, as Go's are, to give no ASCII capital as a lower case. -/
theorem filterWords_invariants (U : UnicodeTables)
    (hU : ∀ r : Char, MaxASCII < r.toNat →
      ¬ ('A'.toNat ≤ (U.lower r).toNat ∧ (U.lower r).toNat ≤ 'Z'.toNat))
    (raw : List String) (w : String) (hw : w ∈ filterWords U raw) :
    (∀ ch ∈ w.data, isLowerAlnum ch = true) ∧
    w.utf8ByteSize > 2 ∧ w.length > 2 ∧
    (filterWords U raw).count w = 1 := by
  have hnodup : (filterWords U raw).Nodup := by
    unfold filterWords
    rw [filterWords_loop_eq]
    exact (removeDuplicates_spec _ (fun _ => false) [] (by simp) List.nodup_nil).1
  obtain ⟨⟨word, _, hword⟩, hv, hl⟩ := (mem_filterWords_iff U raw w).1 hw
  have hall := ((validMatchString_iff w).1 hv).2
  refine ⟨fun ch hch => ?_, hl, ?_, List.count_eq_one_of_mem hnodup hw⟩
  · have hal := hall ch hch
    have hnotcap : ¬ ('A'.toNat ≤ ch.toNat ∧ ch.toNat ≤ 'Z'.toNat) := by
      rw [← hword] at hch
      simp only [ToLower, Map, List.mem_map] at hch
      obtain ⟨r, _, hr⟩ := hch
      rw [← hr]
      by_cases hascii : r.toNat ≤ 127
      · rw [unicodeToLower_ascii U r hascii]
        have := (lower_ascii_facts r.toNat (by omega)).2.1
        rwa [Char.ofNat_toNat] at this
      · rw [unicodeToLower_above U r hascii]
        exact hU r (by simp only [MaxASCII]; omega)
    simp only [isAlnum, Bool.or_eq_true, Bool.and_eq_true, decide_eq_true_eq,
      Bool.decide_or, Bool.decide_and] at hal
    simp only [isLowerAlnum, Bool.or_eq_true, Bool.and_eq_true, decide_eq_true_eq,
      Bool.decide_or, Bool.decide_and]
    tauto
  · rw [← utf8ByteSize_of_valid w hv]
    exact hl

/-- C12 at a concrete input: the fragments `Hello`, `hello`, `ab`, `a-b` and
`World9` leave the two words `hello` and `world9`. -/
theorem filterWords_invariants_witness :
    filterWords asciiTables ["Hello", "hello", "ab", "a-b", "World9"] = ["hello", "world9"] ∧
    ((∀ ch ∈ "hello".data, isLowerAlnum ch = true) ∧
      "hello".utf8ByteSize > 2 ∧ "hello".length > 2 ∧
      (filterWords asciiTables ["Hello", "hello", "ab", "a-b", "World9"]).count "hello" = 1) :=
  ⟨by decide,
    filterWords_invariants asciiTables
      (fun r hr hcap => by
        have hZ : 'Z'.toNat = 90 := rfl
        simp only [asciiTables, MaxASCII] at hr hcap
        omega)
      ["Hello", "hello", "ab", "a-b", "World9"] "hello" (by decide)⟩

/-- Lowercasing an ASCII fragment does not change whether it matches the pattern. -/
theorem validMatchString_ToLower_ascii (U : UnicodeTables) (word : String)
    (h : ∀ ch ∈ word.data, ch.toNat ≤ MaxASCII) :
    validMatchString (ToLower U word) = validMatchString word := by
  have hall : ∀ l : List Char, (∀ ch ∈ l, ch.toNat ≤ MaxASCII) →
      (l.map (unicodeToLower U)).all isAlnum = l.all isAlnum := by
    intro l
    induction l with
    | nil => intro _; rfl
    | cons ch cs ih =>
      intro hl
      have hch : ch.toNat ≤ 127 := hl ch (List.mem_cons_self _ _)
      have := (lower_ascii_facts ch.toNat (by omega)).2.2.1
      rw [Char.ofNat_toNat] at this
      rw [List.map_cons, List.all_cons, List.all_cons,
        ih (fun x hx => hl x (List.mem_cons_of_mem _ hx)), unicodeToLower_ascii U ch hch, this]
  unfold validMatchString ToLower Map
  simp only [hall word.data h]
  cases word.data <;> rfl

/-- C13, as the code behaves: for every list of raw fragments, `filterWords`
lowercases each fragment, discards those whose lowercase form fails the
pattern, discards those of length 2 or less, and keeps the first occurrence
of each word in first-seen order. On fragments made of ASCII characters this
is the pipeline of the spec, which tests the pattern on the fragment itself. -/
theorem filterWords_eq_pipeline (U : UnicodeTables) (raw : List String) :
    filterWords U raw =
      keepFirst ((raw.map (ToLower U)).filter
        (fun w => validMatchString w && decide (w.length > 2))) ∧
    ((∀ word ∈ raw, ∀ ch ∈ word.data, ch.toNat ≤ MaxASCII) →
      filterWords U raw = filterWordsSpec U raw) := by
  have h1 : filterWords U raw =
      keepFirst ((raw.map (ToLower U)).filter
        (fun w => validMatchString w && decide (w.length > 2))) := by
    unfold filterWords
    rw [filterWords_loop_eq, removeDuplicates_eq_keepFirst _ _ [] (by simp), List.nil_append,
      List.filter_filter]
    congr 1
    apply List.filter_congr
    intro w _
    by_cases hv : validMatchString w = true
    · have hne := ((validMatchString_iff w).1 hv).1
      simp [hv, hne, utf8ByteSize_of_valid w hv]
    · have hv' : validMatchString w = false := by simpa using hv
      simp [hv']
  refine ⟨h1, fun hascii => ?_⟩
  rw [h1]
  unfold filterWordsSpec
  congr 1
  rw [List.filter_map, List.filter_map, List.filter_filter]
  congr 1
  apply List.filter_congr
  intro word hword
  simp only [Function.comp, validMatchString_ToLower_ascii U word (hascii word hword)]
  exact Bool.and_comm _ _

/-- C13 at a concrete input of ASCII fragments. -/
theorem filterWords_eq_pipeline_witness :
    (∀ word ∈ ["Hello", "hello", "ab", "a-b", "World9"], ∀ ch ∈ word.data,
      ch.toNat ≤ MaxASCII) ∧
    filterWords asciiTables ["Hello", "hello", "ab", "a-b", "World9"] =
      filterWordsSpec asciiTables ["Hello", "hello", "ab", "a-b", "World9"] ∧
    filterWordsSpec asciiTables ["Hello", "hello", "ab", "a-b", "World9"] =
      ["hello", "world9"] :=
  ⟨by decide,
    (filterWords_eq_pipeline asciiTables ["Hello", "hello", "ab", "a-b", "World9"]).2
      (by decide),
    by decide⟩

/-- C13 fails as stated: the fragment `Kelvin` written with U+212A KELVIN SIGN
fails the pattern, so the pipeline of the spec rejects it, but its lowercase
form is `kelvin` and `filterWords` keeps it. -/
theorem filterWords_kelvin_counterexample :
    validMatchString "\u212Aelvin" = false ∧
    ToLower kelvinTables "\u212Aelvin" = "kelvin" ∧
    filterWordsSpec kelvinTables ["\u212Aelvin"] = [] ∧
    filterWords kelvinTables ["\u212Aelvin"] = ["kelvin"] ∧
    filterWords kelvinTables ["\u212Aelvin"] ≠ filterWordsSpec kelvinTables ["\u212Aelvin"] := by
  decide

/-! ## The size of family H -/

/-- The block of one combo has one entry for the combo, one for each suffix
and one for each year. -/
theorem comboBlock_length (combo : String) : (comboBlock combo).length = 1 + 22 + 9 := by
  simp [comboBlock, suffixes, years]

/-- The blocks of the 14 combos of one word. -/
theorem combos_blocks_length (U : UnicodeTables) (m : MapOrder) (n w : String) :
    ((combos U m n w).flatMap comboBlock).length = 14 * (1 + 22 + 9) := by
  simp [combos, List.flatMap_cons, comboBlock_length]

/-- A word of admissible length adds the blocks of its 14 combos to family H. -/
theorem familyH_insert_length (U : UnicodeTables) (ord : Nat → MapOrder) (n w : String)
    (pre post : List String) (h3 : 3 ≤ w.utf8ByteSize) (h20 : w.utf8ByteSize ≤ 20) :
    ∀ (calls : Nat),
      (familyH U ord n (pre ++ [w] ++ post) calls).length =
        (familyH U ord n (pre ++ post) calls).length + 14 * (1 + 22 + 9) := by
  induction pre with
  | nil =>
    intro calls
    simp only [List.nil_append, List.singleton_append]
    rw [familyH, if_neg (by omega), List.length_append, combos_blocks_length,
      familyH_order U ord ord n post (calls + 1) calls]
    omega
  | cons word rest ih =>
    intro calls
    simp only [List.cons_append]
    unfold familyH
    split
    · exact ih calls
    · rw [List.length_append, List.length_append, ih (calls + 1)]
      omega

/-- C17, as the code behaves: the suffix catalog appended to each context
combo has exactly 22 entries, so each context word of admissible length emits
14 x (1 + 22 + 9) = 448 strings before deduplication. -/
theorem context_word_emission_count (U : UnicodeTables) (ord : Nat → MapOrder) (b : String)
    (pre post : List String) (w : String) (h3 : 3 ≤ w.utf8ByteSize)
    (h20 : w.utf8ByteSize ≤ 20) :
    suffixes.length = 22 ∧ years.length = 9 ∧
    (combos U (ord 0) (normalize U b) w).length = 14 ∧
    (collectResults U ord b (pre ++ [w] ++ post)).length =
      (collectResults U ord b (pre ++ post)).length + 14 * (1 + 22 + 9) ∧
    14 * (1 + 22 + 9) = 448 := by
  refine ⟨rfl, rfl, rfl, ?_, rfl⟩
  rw [collectResults_eq, collectResults_eq, List.length_append, List.length_append,
    familyH_insert_length U ord _ w pre post h3 h20 1]
  omega

/-- C17 at a concrete input: the context word `admin` between `abc` and `user`. -/
theorem context_word_emission_count_witness :
    3 ≤ "admin".utf8ByteSize ∧ "admin".utf8ByteSize ≤ 20 ∧
    (collectResults asciiTables (fun _ => sourceOrder) "root"
        (["abc"] ++ ["admin"] ++ ["user"])).length =
      (collectResults asciiTables (fun _ => sourceOrder) "root" (["abc"] ++ ["user"])).length +
        14 * (1 + 22 + 9) :=
  ⟨by decide, by decide,
    (context_word_emission_count asciiTables (fun _ => sourceOrder) "root" ["abc"] ["user"]
      "admin" (by decide) (by decide)).2.2.2.1⟩

set_option maxRecDepth 100000 in
/-- C17 fails as stated: `suffixes` does not have 21 entries, and the context
word `admin` does not add 434 strings to `results`. -/
theorem context_word_emission_counterexample :
    suffixes.length ≠ 21 ∧
    (collectResults asciiTables (fun _ => sourceOrder) "root" ["admin"]).length ≠
      (collectResults asciiTables (fun _ => sourceOrder) "root" []).length + 434 := by
  refine ⟨by decide, ?_⟩
  rw [collectResults_eq, collectResults_eq]
  decide

/-! ## Case and spacing of the base -/

/-- A second call of `unicode.ToLower` changes nothing, when the table has
this property above ASCII. -/
theorem unicodeToLower_idem (U : UnicodeTables)
    (hU : ∀ r : Char, MaxASCII < r.toNat → unicodeToLower U (U.lower r) = U.lower r)
    (r : Char) : unicodeToLower U (unicodeToLower U r) = unicodeToLower U r := by
  by_cases hascii : r.toNat ≤ 127
  · have h := lower_ascii_facts r.toNat (by omega)
    rw [Char.ofNat_toNat] at h
    rw [unicodeToLower_ascii U r hascii, unicodeToLower_ascii U _ h.1]
    exact h.2.2.2
  · rw [unicodeToLower_above U r hascii]
    exact hU r (by simp only [MaxASCII]; omega)

/-- Line 113 applied twice is line 113 applied once. -/
theorem normalize_idem (U : UnicodeTables)
    (hU : ∀ r : Char, MaxASCII < r.toNat → unicodeToLower U (U.lower r) = U.lower r)
    (b : String) : normalize U (normalize U b) = normalize U b := by
  rw [String.ext_iff, normalize_data, normalize_data]
  generalize hL : List.filter (fun c => decide (c ≠ ' '))
    (List.map (unicodeToLower U) b.data) = L
  have hfix : ∀ r ∈ L, unicodeToLower U r = r := by
    intro r hr
    rw [← hL] at hr
    obtain ⟨r', _, rfl⟩ := List.mem_map.1 (List.mem_filter.1 hr).1
    exact unicodeToLower_idem U hU r'
  have hp : ∀ r ∈ L, decide (r ≠ ' ') = true := by
    intro r hr
    rw [← hL] at hr
    exact (List.mem_filter.1 hr).2
  have hmap : L.map (unicodeToLower U) = L := by
    conv_rhs => rw [← List.map_id L]
    exact List.map_congr_left hfix
  rw [hmap, List.filter_eq_self]
  exact hp

/-- C18: the engine is insensitive to the case and spacing of the base. For
every base and context the output is the output for the base lowercased with
every space removed, so two bases with the same normal form give the same
output. The lower-case table is assumed, as Go's is, to be idempotent. -/
theorem generateCombinations_normalized (U : UnicodeTables)
    (hU : ∀ r : Char, MaxASCII < r.toNat → unicodeToLower U (U.lower r) = U.lower r)
    (ord : Nat → MapOrder) (b : String) (c : List String) :
    generateCombinations U ord b c = generateCombinations U ord (normalize U b) c ∧
    ∀ b2 : String, normalize U b2 = normalize U b →
      generateCombinations U ord b2 c = generateCombinations U ord b c := by
  constructor
  · unfold generateCombinations
    rw [collectResults_eq, collectResults_eq, normalize_idem U hU]
  · intro b2 h
    unfold generateCombinations
    rw [collectResults_eq, collectResults_eq, h]

/-- C18 at concrete inputs: the bases `Ro oT`, `root` and `ROOT`. -/
theorem generateCombinations_normalized_witness :
    normalize asciiTables "Ro oT" = "root" ∧ normalize asciiTables "ROOT" = "root" ∧
    generateCombinations asciiTables (fun _ => sourceOrder) "Ro oT" ["admin"] =
      generateCombinations asciiTables (fun _ => sourceOrder) "root" ["admin"] ∧
    generateCombinations asciiTables (fun _ => sourceOrder) "ROOT" ["admin"] =
      generateCombinations asciiTables (fun _ => sourceOrder) "Ro oT" ["admin"] :=
  have h := generateCombinations_normalized asciiTables
    (fun r hr => unicodeToLower_above asciiTables r (by simp only [MaxASCII] at hr; omega))
    (fun _ => sourceOrder) "Ro oT" ["admin"]
  ⟨by decide, by decide, h.1, h.2 "ROOT" (by decide)⟩

/-! ## No line break in a candidate -/

/-- A string has no line break when none of its characters is one. -/
theorem hasLineBreak_eq_false_iff (s : String) :
    hasLineBreak s = false ↔ ∀ ch ∈ s.data, isLineBreak ch = false := by
  simp [hasLineBreak, List.any_eq_false]

/-- A concatenation has a line break when one of its parts has. -/
theorem hasLineBreak_append (s t : String) :
    hasLineBreak (s ++ t) = (hasLineBreak s || hasLineBreak t) := by
  simp [hasLineBreak, List.any_append]

/-- No catalog entry and no separator holds a line break. -/
theorem catalogs_no_break :
    (∀ e ∈ wordEndings, hasLineBreak e = false) ∧ (∀ t ∈ ctfTerms, hasLineBreak t = false) ∧
    (∀ y ∈ years, hasLineBreak y = false) ∧ (∀ k ∈ keyboards, hasLineBreak k = false) ∧
    (∀ p ∈ prefixes, hasLineBreak p = false) ∧ (∀ s ∈ suffixes, hasLineBreak s = false) ∧
    hasLineBreak "_" = false ∧ hasLineBreak "-" = false ∧ hasLineBreak "." = false ∧
    hasLineBreak "0" = false := by
  decide

/-- The decimal form of a number below 100 holds no line break. -/
theorem sprintfD_no_break : ∀ i < 100, hasLineBreak (sprintfD i) = false := by
  decide

/-- The ASCII branches of the three case mappings turn no character into a
line break, checked on each of the 128 code points. -/
theorem case_ascii_no_break : ∀ n < 128, isLineBreak (Char.ofNat n) = false →
    isLineBreak (unicodeToLower asciiTables (Char.ofNat n)) = false ∧
    isLineBreak (unicodeToUpper asciiTables (Char.ofNat n)) = false ∧
    isLineBreak (unicodeToTitle asciiTables (Char.ofNat n)) = false := by
  decide

/-- A case mapping that follows the ASCII branch below U+0080 and a table
above it turns no character into a line break when the table does not. -/
theorem case_no_break (U : UnicodeTables) (r : Char) (h : isLineBreak r = false) :
    ((MaxASCII < r.toNat → isLineBreak (U.lower r) = false) →
      isLineBreak (unicodeToLower U r) = false) ∧
    ((MaxASCII < r.toNat → isLineBreak (U.upper r) = false) →
      isLineBreak (unicodeToUpper U r) = false) ∧
    ((MaxASCII < r.toNat → isLineBreak (U.title r) = false) →
      isLineBreak (unicodeToTitle U r) = false) := by
  by_cases hascii : r.toNat ≤ 127
  · have hf := case_ascii_no_break r.toNat (by omega)
    rw [Char.ofNat_toNat] at hf
    obtain ⟨h1, h2, h3⟩ := hf h
    refine ⟨fun _ => ?_, fun _ => ?_, fun _ => ?_⟩
    · simpa [unicodeToLower, MaxASCII, hascii] using h1
    · simpa [unicodeToUpper, MaxASCII, hascii] using h2
    · simpa [unicodeToTitle, MaxASCII, hascii] using h3
  · have habove : MaxASCII < r.toNat := by simp only [MaxASCII]; omega
    refine ⟨fun ht => ?_, fun ht => ?_, fun ht => ?_⟩
    · simpa [unicodeToLower, MaxASCII, hascii] using ht habove
    · simpa [unicodeToUpper, MaxASCII, hascii] using ht habove
    · simpa [unicodeToTitle, MaxASCII, hascii] using ht habove

/-- The function `Map` brings in no line break when the mapping does not. -/
theorem Map_no_break (f : Char → Char) (s : String)
    (h : ∀ r ∈ s.data, isLineBreak (f r) = false) : hasLineBreak (Map f s) = false := by
  rw [hasLineBreak_eq_false_iff]
  intro ch hch
  obtain ⟨r, hr, rfl⟩ := List.mem_map.1 hch
  exact h r hr

/-- Every character written by the closure of `Title` is a character read or
its title case. -/
theorem mem_Title_go (U : UnicodeTables) (rs : List Char) :
    ∀ (prev ch : Char), ch ∈ Title.go U prev rs → ∃ r ∈ rs, ch = r ∨ ch = unicodeToTitle U r := by
  induction rs with
  | nil => intro prev ch h; cases h
  | cons r rs ih =>
    intro prev ch h
    unfold Title.go at h
    rcases List.mem_cons.1 h with h | h
    · refine ⟨r, List.mem_cons_self _ _, ?_⟩
      split at h
      · exact Or.inr h
      · exact Or.inl h
    · obtain ⟨r', hr', hch⟩ := ih r ch h
      exact ⟨r', List.mem_cons_of_mem _ hr', hch⟩

/-- The function `Title` brings in no line break. -/
theorem Title_no_break (U : UnicodeTables) (s : String)
    (h : ∀ r ∈ s.data, isLineBreak r = false ∧ isLineBreak (unicodeToTitle U r) = false) :
    hasLineBreak (Title U s) = false := by
  rw [hasLineBreak_eq_false_iff]
  intro ch hch
  obtain ⟨r, hr, hc | hc⟩ := mem_Title_go U s.data ' ' ch hch
  · rw [hc]; exact (h r hr).1
  · rw [hc]; exact (h r hr).2

/-- The function `reverse` brings in no line break. -/
theorem reverse_no_break (s : String) (h : hasLineBreak s = false) :
    hasLineBreak (reverse s) = false := by
  rw [hasLineBreak_eq_false_iff] at h ⊢
  intro ch hch
  rw [reverse_eq] at hch
  exact h ch (List.mem_reverse.1 hch)

/-- The table of the spec returns its argument or one of seven symbols. -/
theorem leetChar_cases (c : Char) :
    leetChar c = c ∨ leetChar c ∈ ['@', '3', '1', '0', '$', '7', '9'] := by
  by_cases hc : leetChar c = c
  · exact Or.inl hc
  · right
    unfold leetChar at hc ⊢
    split_ifs at hc ⊢ <;> first | exact absurd rfl hc | simp

/-- The function `toLeetspeak` brings in no line break. -/
theorem toLeetspeak_no_break (m : MapOrder) (s : String) (h : hasLineBreak s = false) :
    hasLineBreak (toLeetspeak m s) = false := by
  rw [toLeetspeak_eq_variant]
  rw [hasLineBreak_eq_false_iff] at h ⊢
  intro ch hch
  obtain ⟨r, hr, rfl⟩ := List.mem_map.1 hch
  have hsym : ∀ d : Char, d ∈ ['@', '3', '1', '0', '$', '7', '9'] → isLineBreak d = false := by
    decide
  rcases leetChar_cases r with hc | hc
  · rw [hc]; exact h r hr
  · exact hsym _ hc

/-- Families A to G hold no line break when the base, its upper case and its
title case hold none. -/
theorem baseFamilies_no_break (U : UnicodeTables) (m : MapOrder) (n : String)
    (hn : hasLineBreak n = false) (hup : hasLineBreak (ToUpper U n) = false)
    (hti : hasLineBreak (Title U n) = false) :
    ∀ x ∈ baseFamilies U m n, hasLineBreak x = false := by
  obtain ⟨bE, bT, bY, bK, bP, _, bu, bd, _, b0⟩ := catalogs_no_break
  have hrev := reverse_no_break n hn
  have hleet := toLeetspeak_no_break m n hn
  intro x hx
  simp only [baseFamilies, familyA, familyB, familyC, familyD, familyE, familyF, familyG,
    List.mem_append, List.mem_cons, List.mem_flatMap, List.mem_map, List.not_mem_nil,
    or_false, List.mem_range] at hx
  rcases hx with ((((((hA | hB) | hC) | hD) | hE) | hF) | hG)
  · rcases hA with rfl | rfl | rfl | rfl | rfl <;> assumption
  · obtain ⟨a, ha, rfl⟩ := hB
    simp [hasLineBreak_append, hn, bE a ha]
  · obtain ⟨t, ht, h⟩ := hC
    rcases h with rfl | rfl | rfl | rfl <;> simp [hasLineBreak_append, hn, bT t ht, bu]
  · obtain ⟨y, hy, h⟩ := hD
    rcases h with rfl | rfl <;> simp [hasLineBreak_append, hn, bY y hy]
  · obtain ⟨k, hk, h⟩ := hE
    rcases h with rfl | rfl <;> simp [hasLineBreak_append, hn, bK k hk]
  · obtain ⟨j, hj, h⟩ := hF
    have hd := sprintfD_no_break j hj
    unfold numberBlock at h
    simp only [List.mem_append, List.mem_singleton] at h
    rcases h with h | rfl
    · split at h
      · rw [List.mem_singleton] at h
        subst h
        simp [hasLineBreak_append, hn, hd, b0]
      · cases h
    · simp [hasLineBreak_append, hn, hd]
  · obtain ⟨p, hp, h⟩ := hG
    rcases h with rfl | rfl | rfl <;> simp [hasLineBreak_append, hn, bP p hp, bu, bd]

/-- A context word of lowercase ASCII letters and digits holds no line break,
and neither do its lower, upper and title case. -/
theorem word_no_break (U : UnicodeTables) (w : String)
    (hw : ∀ ch ∈ w.data, isLowerAlnum ch = true) :
    hasLineBreak w = false ∧ hasLineBreak (ToLower U w) = false ∧
    hasLineBreak (ToUpper U w) = false ∧ hasLineBreak (Title U w) = false := by
  have hchar : ∀ ch ∈ w.data, isLineBreak ch = false ∧ ch.toNat ≤ 127 := by
    intro ch hch
    have h := hw ch hch
    have hz : 'z'.toNat = 122 := rfl
    have ha : 'a'.toNat = 97 := rfl
    have h0 : '0'.toNat = 48 := rfl
    have h9 : '9'.toNat = 57 := rfl
    simp only [isLowerAlnum, Bool.or_eq_true, Bool.and_eq_true, decide_eq_true_eq,
      Bool.decide_or, Bool.decide_and] at h
    have hle : ch.toNat ≤ 127 := by omega
    refine ⟨?_, hle⟩
    have hn : '\n'.toNat = 10 := rfl
    have hr : '\r'.toNat = 13 := rfl
    simp only [isLineBreak, Bool.or_eq_false_iff, decide_eq_false_iff_not]
    constructor <;> intro e <;> rw [e] at h <;> omega
  have hno : ∀ ch ∈ w.data, ¬ MaxASCII < ch.toNat := by
    intro ch hch
    have := (hchar ch hch).2
    simp only [MaxASCII]
    omega
  refine ⟨(hasLineBreak_eq_false_iff w).2 (fun ch hch => (hchar ch hch).1), ?_, ?_, ?_⟩
  · exact Map_no_break _ _ (fun r hr =>
      (case_no_break U r (hchar r hr).1).1 (fun h => absurd h (hno r hr)))
  · exact Map_no_break _ _ (fun r hr =>
      (case_no_break U r (hchar r hr).1).2.1 (fun h => absurd h (hno r hr)))
  · exact Title_no_break U w (fun r hr => ⟨(hchar r hr).1,
      (case_no_break U r (hchar r hr).1).2.2 (fun h => absurd h (hno r hr))⟩)

/-- Family H holds no line break when the base and the context words hold none. -/
theorem familyH_no_break (U : UnicodeTables) (ord : Nat → MapOrder) (n : String)
    (hn : hasLineBreak n = false) (c : List String)
    (hc : ∀ w ∈ c, ∀ ch ∈ w.data, isLowerAlnum ch = true) :
    ∀ (calls : Nat), ∀ x ∈ familyH U ord n c calls, hasLineBreak x = false := by
  obtain ⟨_, _, bY, _, _, bS, bu, bd, bp, _⟩ := catalogs_no_break
  induction c with
  | nil => intro calls x hx; cases hx
  | cons w rest ih =>
    have ihrest := ih (fun w' hw' => hc w' (List.mem_cons_of_mem _ hw'))
    intro calls x hx
    unfold familyH at hx
    split at hx
    · exact ihrest calls x hx
    · rcases List.mem_append.1 hx with hx | hx
      · obtain ⟨hw0, hw1, hw2, hw3⟩ := word_no_break U w (hc w (List.mem_cons_self _ _))
        have hw4 := reverse_no_break w hw0
        have hw5 := toLeetspeak_no_break (ord calls) w hw0
        obtain ⟨combo, hcombo, hblock⟩ := List.mem_flatMap.1 hx
        have hcb : hasLineBreak combo = false := by
          simp only [combos, List.mem_cons, List.mem_singleton, List.not_mem_nil,
            or_false] at hcombo
          rcases hcombo with rfl | rfl | rfl | rfl | rfl | rfl | rfl | rfl | rfl | rfl | rfl |
            rfl | rfl | rfl <;> simp [hasLineBreak_append, hn, hw0, hw1, hw2, hw3, hw4, hw5,
              bu, bd, bp]
        simp only [comboBlock, List.mem_append, List.mem_cons, List.mem_singleton,
          List.not_mem_nil, or_false, List.mem_map] at hblock
        rcases hblock with (rfl | ⟨s, hs, rfl⟩) | ⟨y, hy, rfl⟩
        · exact hcb
        · simp [hasLineBreak_append, hcb, bS s hs]
        · simp [hasLineBreak_append, hcb, bY y hy]
      · exact ihrest (calls + 1) x hx

/-- C14, as the code behaves: for every base that is lowercased with spaces
removed and holds no line-break character, and every context of lowercase
alphanumeric words of length above 2, no candidate holds a line-break
character. The upper and title case tables are assumed, as Go's are, to give
no line break. -/
theorem no_line_break (U : UnicodeTables)
    (hU : ∀ r : Char, MaxASCII < r.toNat →
      isLineBreak (U.upper r) = false ∧ isLineBreak (U.title r) = false)
    (ord : Nat → MapOrder) (b : String) (c : List String)
    (hl : ToLower U b = b) (hs : ' ' ∉ b.data)
    (hb : ∀ ch ∈ b.data, ch ≠ '\n' ∧ ch ≠ '\r')
    (hc : ∀ w ∈ c, (∀ ch ∈ w.data, isLowerAlnum ch = true) ∧ w.length > 2) :
    ∀ x ∈ generateCombinations U ord b c, ∀ ch ∈ x.data, ch ≠ '\n' ∧ ch ≠ '\r' := by
  have hbb : ∀ ch ∈ b.data, isLineBreak ch = false := by
    intro ch hch
    simp [isLineBreak, hb ch hch]
  have hn : hasLineBreak b = false := (hasLineBreak_eq_false_iff b).2 hbb
  have hup : hasLineBreak (ToUpper U b) = false :=
    Map_no_break _ _ (fun r hr => (case_no_break U r (hbb r hr)).2.1 (fun h => (hU r h).1))
  have hti : hasLineBreak (Title U b) = false :=
    Title_no_break U b (fun r hr => ⟨hbb r hr,
      (case_no_break U r (hbb r hr)).2.2 (fun h => (hU r h).2)⟩)
  intro x hx ch hch
  rw [mem_generateCombinations_iff, collectResults_eq, normalize_eq_self U b hl hs] at hx
  have hxb : hasLineBreak x = false := by
    rcases List.mem_append.1 hx.1 with h | h
    · exact baseFamilies_no_break U (ord 0) b hn hup hti x h
    · exact familyH_no_break U ord b hn c (fun w hw => (hc w hw).1) 1 x h
  have := (hasLineBreak_eq_false_iff x).1 hxb ch hch
  simpa [isLineBreak] using this

/-- The tables `asciiTables` give no line break: above ASCII they return
their argument. -/
theorem asciiTables_no_break (r : Char) (hr : MaxASCII < r.toNat) :
    isLineBreak (asciiTables.upper r) = false ∧ isLineBreak (asciiTables.title r) = false := by
  have hn : '\n'.toNat = 10 := rfl
  have hc : '\r'.toNat = 13 := rfl
  have h : isLineBreak r = false := by
    simp only [isLineBreak, Bool.or_eq_false_iff, decide_eq_false_iff_not]
    simp only [MaxASCII] at hr
    constructor <;> intro e <;> rw [e] at hr <;> omega
  exact ⟨h, h⟩

/-- C14 at a concrete input: the base `root` with the context `admin`. -/
theorem no_line_break_witness :
    ToLower asciiTables "root" = "root" ∧ ' ' ∉ "root".data ∧
    (∀ ch ∈ "root".data, ch ≠ '\n' ∧ ch ≠ '\r') ∧
    (∀ w ∈ ["admin"], (∀ ch ∈ w.data, isLowerAlnum ch = true) ∧ w.length > 2) ∧
    ∀ x ∈ generateCombinations asciiTables (fun _ => sourceOrder) "root" ["admin"],
      ∀ ch ∈ x.data, ch ≠ '\n' ∧ ch ≠ '\r' :=
  ⟨by decide, by decide, by decide, by decide,
    no_line_break asciiTables asciiTables_no_break (fun _ => sourceOrder) "root" ["admin"]
      (by decide) (by decide) (by decide) (by decide)⟩

/-- C14 fails as stated: the base made of `a`, a line feed and `b` is
lowercased and has no space, and it is itself a candidate. -/
theorem no_line_break_counterexample :
    ToLower asciiTables "a\nb" = "a\nb" ∧ ' ' ∉ "a\nb".data ∧
    "a\nb" ∈ generateCombinations asciiTables (fun _ => sourceOrder) "a\nb" [] ∧
    '\n' ∈ "a\nb".data := by
  refine ⟨by decide, by decide, ?_, by decide⟩
  apply mem_of_mem_baseFamilies asciiTables _ sourceOrder "a\nb" [] "a\nb" _ (by decide)
  have hn : normalize asciiTables "a\nb" = "a\nb" := by decide
  rw [hn]
  simp [baseFamilies, familyA]

end WordGen
